import Mathlib

set_option maxHeartbeats 1000000
set_option linter.unusedSectionVars false

/-!
Verification of the forseti DBSP core (Z-set algebra, stream calculus,
stateful operators) against its natural-language specification.

The TypeScript source is shallowly embedded:
* a `ZSet T` is the `data` array of the `ZSet` class — a list of
  (record, weight) pairs with integer weights;
* record identity through `JSON.stringify` is modelled by a serialization
  function `keyOf : T → K` into a type with decidable equality;
* JS `Map`s are modelled by association lists in insertion order;
* JS `Array.prototype.sort(comparator)` (stable) is modelled by a stable
  insertion sort parameterized by the comparator;
* classes holding mutable state (`StatefulEquiJoin`, `StatefulTopK`, the
  closure state of `optimizeBilinear`) become explicit state types with
  state-passing step functions.
-/

namespace Forseti

/-- Builder form of a Z-set: the `data` array of the TS `ZSet` class, an
ordered list of (record, weight) pairs. -/
abbrev ZSet (T : Type) := List (T × Int)

section Core

variable {T K : Type} [DecidableEq K] (keyOf : T → K)

/-- Semantic weight of serialization key `k` in a Z-set: the sum of the
weights of all entries whose record serializes (via `keyOf`, modelling
`JSON.stringify`) to `k`. -/
def weightAt : ZSet T → K → Int
  | [], _ => 0
  | p :: rest, k => (if keyOf p.1 = k then p.2 else 0) + weightAt rest k

/-- The distinct serialization keys of a Z-set in first-appearance order:
the iteration order of the `Map` built by `ZSet.mergeRecords`. -/
def firstKeys : ZSet T → List K
  | [] => []
  | p :: rest => keyOf p.1 :: (firstKeys rest).filter (fun k => k ≠ keyOf p.1)

/-- `ZSet.mergeRecords` (z-set.ts): canonicalization.  The JS loop builds an
insertion-ordered `Map` from serialization key to (first-encountered record,
summed weight), then emits the entries with nonzero weight.  Extensionally:
one entry per first-appearance key, carrying the first record with that key
and the total weight, zero-weight keys dropped. -/
def mergeRecords (z : ZSet T) : ZSet T :=
  (firstKeys keyOf z).filterMap (fun k =>
    (z.find? (fun p => decide (keyOf p.1 = k))).bind (fun p =>
      if weightAt keyOf z k = 0 then none else some (p.1, weightAt keyOf z k)))

/-- Semantic (canonical key→weight mapping) equality of Z-sets. -/
def zeq (a b : ZSet T) : Prop := ∀ k : K, weightAt keyOf a k = weightAt keyOf b k

/-- `ZSetGroup.zero`. -/
def groupZero : ZSet T := []

/-- `ZSetGroup.negate`. -/
def groupNegate (a : ZSet T) : ZSet T := a.map (fun p => (p.1, -p.2))

/-- `ZSetGroup.add` (z-set.ts): early exit on an empty argument, otherwise
concatenate and canonicalize (`fastMerge` also falls through to
`concat().mergeRecords()`). -/
def groupAdd (a b : ZSet T) : ZSet T :=
  if a.isEmpty then b
  else if b.isEmpty then a
  else mergeRecords keyOf (a ++ b)

/-- `ZSetGroup.subtract`. -/
def groupSub (a b : ZSet T) : ZSet T := groupAdd keyOf a (groupNegate b)

/-- Well-formed (canonical-shaped) Z-set: no duplicate serialization keys
and no zero weights. -/
def WF (z : ZSet T) : Prop :=
  (z.map (fun p => keyOf p.1)).Nodup ∧ ∀ p ∈ z, p.2 ≠ 0

/-- Bounded, executable check of semantic equality: it is enough to compare
weights at the keys mentioned by either side. -/
def zeqB (a b : ZSet T) : Bool :=
  (a.map (fun p => keyOf p.1) ++ b.map (fun p => keyOf p.1)).all
    (fun k => decide (weightAt keyOf a k = weightAt keyOf b k))

end Core

section SortDefs

variable {T : Type}

/-- Stable insertion into a sorted list of (record, weight) pairs, under the
user comparator applied to records: the new element passes every strictly
smaller element and lands before the first element that does not compare
strictly below it, hence after-coming elements never jump over ties.  This
models the (stable) JS `Array.prototype.sort(([a], [b]) => comparator(a, b))`
used by `ZSetOperators.topK` and `StatefulTopK`. -/
def insertByCmp (cmp : T → T → Int) (x : T × Int) : List (T × Int) → List (T × Int)
  | [] => [x]
  | y :: ys => if cmp y.1 x.1 < 0 then y :: insertByCmp cmp x ys else x :: y :: ys

/-- Stable sort by the user comparator (model of JS stable sort). -/
def sortByCmp (cmp : T → T → Int) : List (T × Int) → List (T × Int)
  | [] => []
  | x :: xs => insertByCmp cmp x (sortByCmp cmp xs)

end SortDefs

section OperatorDefs

variable {T K : Type} [DecidableEq K] (keyOf : T → K) (cmp : T → T → Int)

/-- `ZSetOperators.topK` (z-set-operators.ts): keep the strictly positive
entries of the raw `data` array (no canonicalization!), sort them stably by
the comparator, take the slice `[offset, offset + k)` and clamp every
surviving weight to `min(w, 1)`. -/
def zsetTopK (k off : Nat) (z : ZSet T) : ZSet T :=
  ((((sortByCmp cmp (z.filter (fun p => decide (0 < p.2))))).drop off).take k).map
    (fun p => (p.1, min p.2 1))

/-- Modelled from the spec wording of `top_k` (§4.1), for comparison with the
implementation: canonicalize first, then drop non-positive entries, sort
stably, slice, and clamp weights to `min(w, 1)`. -/
def specTopK (k off : Nat) (z : ZSet T) : ZSet T :=
  ((((sortByCmp cmp ((mergeRecords keyOf z).filter (fun p => decide (0 < p.2))))).drop
    off).take k).map (fun p => (p.1, min p.2 1))

/-- The comparator contract assumed by the spec (§6: "total and transitive")
together with tie-freedom across distinct records: records compare equal
exactly when they have the same serialization. -/
structure CmpSpec : Prop where
  total : ∀ x y, cmp x y ≤ 0 ∨ cmp y x ≤ 0
  trans : ∀ x y z, cmp x y ≤ 0 → cmp y z ≤ 0 → cmp x z ≤ 0
  antisymm : ∀ x y, cmp x y ≤ 0 → cmp y x ≤ 0 → cmp x y = 0
  tie_iff : ∀ x y, cmp x y = 0 ↔ keyOf x = keyOf y

/-- No record's running cumulative weight ever dips below zero while the
entries of `es` are applied one at a time. -/
def PrefixNonneg (es : List (T × Int)) : Prop :=
  ∀ n : Nat, ∀ k : K, 0 ≤ weightAt keyOf (es.take n) k

end OperatorDefs

section TopKDefs

variable {T K : Type} [DecidableEq K] (keyOf : T → K) (cmp : T → T → Int)
  (limit off : Nat)

/-- State of `StatefulTopK`: the weight-carrying sorted array and the
previously emitted top-K snapshot (`lastTopK`).  The `elementIndex` map is
not modelled separately: the code keeps it consistent with
`sortedElements` after every mutation, so a lookup is the position of the
unique entry with the given serialization key. -/
structure TopKState (T : Type) where
  sortedElements : List (T × Int)
  lastTopK : ZSet T

/-- Add `w` to the weight of the (unique) entry with serialization key `k`,
removing the entry when the new weight is ≤ 0.  This is the common effect of
the update branch of `insertElement` and of `removeElement` in
stateful-top-k.ts (`removeElement(record, -Δw)` subtracts `-Δw`, i.e. adds
the delta weight). -/
def updateWeightFirst (k : K) (w : Int) : List (T × Int) → List (T × Int)
  | [] => []
  | p :: rest =>
      if keyOf p.1 = k then
        (if p.2 + w ≤ 0 then rest else (p.1, p.2 + w) :: rest)
      else p :: updateWeightFirst k w rest

/-- One iteration of the `processIncrement` loop of `StatefulTopK` on a
single (record, Δw) pair: present records are updated (with a full re-sort
when Δw > 0, none when Δw ≤ 0), absent records are inserted and re-sorted
when Δw > 0 and ignored when Δw ≤ 0. -/
def processEntry (els : List (T × Int)) (e : T × Int) : List (T × Int) :=
  if els.any (fun p => decide (keyOf p.1 = keyOf e.1)) then
    if 0 < e.2 then sortByCmp cmp (updateWeightFirst keyOf (keyOf e.1) e.2 els)
    else updateWeightFirst keyOf (keyOf e.1) e.2 els
  else
    if 0 < e.2 then sortByCmp cmp (els ++ [e]) else els

/-- `getCurrentTopK`: slice `[offset, min(offset+limit, len))` of the sorted
array, keep strictly positive weights, clamp each to `min(w, 1)`. -/
def currentTopK (els : List (T × Int)) : ZSet T :=
  (((els.drop off).take limit).filter (fun p => decide (0 < p.2))).map
    (fun p => (p.1, min p.2 1))

/-- `StatefulTopK.processIncrement`: apply each delta entry in order, then
emit `newTopK − lastTopK` and store the new snapshot. -/
def processIncrementTopK (st : TopKState T) (delta : ZSet T) : ZSet T × TopKState T :=
  let els := delta.foldl (processEntry keyOf cmp) st.sortedElements
  let newTopK := currentTopK limit off els
  (groupSub keyOf newTopK st.lastTopK, ⟨els, newTopK⟩)

/-- Fresh `StatefulTopK` state. -/
def initTopK : TopKState T := ⟨[], []⟩

/-- Run a whole sequence of deltas through `processIncrement` from fresh
state. -/
def processDeltasTopK (ds : List (ZSet T)) : TopKState T :=
  ds.foldl (fun st d => (processIncrementTopK keyOf cmp limit off st d).2) initTopK

/-- The "group sum of all the deltas": fold of `ZSetGroup.add` from
`zero()`. -/
def integratedInput (ds : List (ZSet T)) : ZSet T :=
  ds.foldl (groupAdd keyOf) []

end TopKDefs

section JoinDefs

variable {T U KT KU KJ : Type} [DecidableEq KT] [DecidableEq KU] [DecidableEq KJ]
  (kA : T → KJ) (kB : U → KJ) (keyT : T → KT) (keyU : U → KU)

/-- Serialization of a joined record `[recordA, recordB]`: componentwise
serialization (two JSON texts are equal iff the serialized pair texts are). -/
def pairKey : T × U → KT × KU := fun p => (keyT p.1, keyU p.2)

/-- The append-order result list of `ZSetOperators.equiJoin` before its
final `mergeRecords`: for each entry of `a` in order, every entry of `b`
with matching join key in order, emitting the weight product when it is
nonzero. -/
def equiJoinRaw (a : ZSet T) (b : ZSet U) : List ((T × U) × Int) :=
  a.flatMap (fun pa =>
    (b.filter (fun pb => decide (kB pb.1 = kA pa.1))).filterMap (fun pb =>
      if pa.2 * pb.2 = 0 then none else some ((pa.1, pb.1), pa.2 * pb.2)))

/-- Same pair set, iterated with `b` outermost — the loop order of
`joinIndexAgainstDelta` (term 3 of the stateful join). -/
def equiJoinRawFlip (a : ZSet T) (b : ZSet U) : List ((T × U) × Int) :=
  b.flatMap (fun pb =>
    (a.filter (fun pa => decide (kA pa.1 = kB pb.1))).filterMap (fun pa =>
      if pa.2 * pb.2 = 0 then none else some ((pa.1, pb.1), pa.2 * pb.2)))

/-- `ZSetOperators.equiJoin` (z-set-operators.ts): indexed nested loop over
the raw `data` arrays followed by `mergeRecords`. -/
def equiJoin (a : ZSet T) (b : ZSet U) : ZSet (T × U) :=
  mergeRecords (pairKey keyT keyU) (equiJoinRaw kA kB a b)

/-- State of `StatefulEquiJoin`: the two persistent indexes (a `Map` from
join-key string to the per-key insertion-ordered entry list; modelled as the
flat insertion-ordered list, from which a per-key lookup is the filter by
that key), and the materialized-view map (pair-key → (pair, weight), in
insertion order, no zero weights). -/
structure JoinState (T U : Type) where
  indexA : List (T × Int)
  indexB : List (U × Int)
  mv : List ((T × U) × Int)

/-- Replace the weight stored for pair-key `k` in the materialized-view map,
keeping the stored record and its position (JS `Map.set` on an existing
key). -/
def setWeightFirst (k : KT × KU) (w : Int) :
    List ((T × U) × Int) → List ((T × U) × Int)
  | [] => []
  | q :: rest =>
      if pairKey keyT keyU q.1 = k then (q.1, w) :: rest
      else q :: setWeightFirst k w rest

/-- `updateMaterializedView`, one delta entry: add the weight to the
existing entry (deleting it at zero), or append a new entry when the weight
is nonzero. -/
def mvApply (mv : List ((T × U) × Int)) (e : (T × U) × Int) :
    List ((T × U) × Int) :=
  match mv.find? (fun q => decide (pairKey keyT keyU q.1 = pairKey keyT keyU e.1)) with
  | some q =>
      if q.2 + e.2 = 0 then
        mv.eraseP (fun q2 => decide (pairKey keyT keyU q2.1 = pairKey keyT keyU e.1))
      else setWeightFirst keyT keyU (pairKey keyT keyU e.1) (q.2 + e.2) mv
  | none => if e.2 = 0 then mv else mv ++ [e]

/-- `updateMaterializedView` over a whole delta. -/
def mvUpdate (mv : List ((T × U) × Int)) (delta : List ((T × U) × Int)) :
    List ((T × U) × Int) :=
  delta.foldl (mvApply keyT keyU) mv

/-- `deltaResult` after term 1 of `processIncrement`: `Δa ⋈ Δb`, computed
and added only when both deltas are nonempty. -/
def jr1 (dA : ZSet T) (dB : ZSet U) : ZSet (T × U) :=
  if ¬dA.isEmpty ∧ ¬dB.isEmpty then
    groupAdd (pairKey keyT keyU) []
      (mergeRecords (pairKey keyT keyU) (equiJoinRaw kA kB dA dB))
  else []

/-- `deltaResult` after term 2: add `Δa ⋈ I(b)` (the persistent index B)
when Δa is nonempty. -/
def jr2 (st : JoinState T U) (dA : ZSet T) (dB : ZSet U) : ZSet (T × U) :=
  if ¬dA.isEmpty then
    groupAdd (pairKey keyT keyU) (jr1 kA kB keyT keyU dA dB)
      (mergeRecords (pairKey keyT keyU) (equiJoinRaw kA kB dA st.indexB))
  else jr1 kA kB keyT keyU dA dB

/-- `deltaResult` after term 3: add `I(a) ⋈ Δb` (iterated with Δb outer,
as `joinIndexAgainstDelta` does) when Δb is nonempty. -/
def jr3 (st : JoinState T U) (dA : ZSet T) (dB : ZSet U) : ZSet (T × U) :=
  if ¬dB.isEmpty then
    groupAdd (pairKey keyT keyU) (jr2 kA kB keyT keyU st dA dB)
      (mergeRecords (pairKey keyT keyU) (equiJoinRawFlip kA kB st.indexA dB))
  else jr2 kA kB keyT keyU st dA dB

/-- `StatefulEquiJoin.processIncrement`: the three bilinear terms (each one
guarded by the emptiness checks and merged), summed with `groupC.add`; then
the indexes are extended with the raw delta entries and the materialized
view is updated with the emitted delta. -/
def processIncrementJoin (st : JoinState T U) (dA : ZSet T) (dB : ZSet U) :
    ZSet (T × U) × JoinState T U :=
  (jr3 kA kB keyT keyU st dA dB,
    ⟨st.indexA ++ dA, st.indexB ++ dB,
      mvUpdate keyT keyU st.mv (jr3 kA kB keyT keyU st dA dB)⟩)

/-- Fresh `StatefulEquiJoin` state. -/
def initJoin : JoinState T U := ⟨[], [], []⟩

/-- Run a whole sequence of delta pairs through `processIncrement` from
fresh state. -/
def processDeltasJoin (ds : List (ZSet T × ZSet U)) : JoinState T U :=
  ds.foldl (fun st d => (processIncrementJoin kA kB keyT keyU st d.1 d.2).2) initJoin

/-- `getMaterializedView`: the values of the materialized-view map, in
insertion order. -/
def materializedView (st : JoinState T U) : ZSet (T × U) := st.mv

/-- Contribution of one pair of input entries to the semantic weight of the
join result at joined pair key `kp`: the weight product when the join keys
match and the pair serializes to `kp`. -/
def jcontrib (kp : KT × KU) (pa : T × Int) (pb : U × Int) : Int :=
  if kB pb.1 = kA pa.1 ∧ (keyT pa.1, keyU pb.1) = kp then pa.2 * pb.2 else 0

/-- Semantic weight of the equi-join of `a` and `b` at joined pair key
`kp`, as a double sum of contributions. -/
def jweight (a : ZSet T) (b : ZSet U) (kp : KT × KU) : Int :=
  (a.map (fun pa => (b.map (fun pb => jcontrib kA kB keyT keyU kp pa pb)).sum)).sum

/-- Well-formedness of the materialized-view map: no duplicate pair keys
(a JS `Map` cannot hold two entries with the same key). -/
def MVInv (mv : List ((T × U) × Int)) : Prop :=
  (mv.map (fun q => pairKey keyT keyU q.1)).Nodup

end JoinDefs

section StreamDefs

variable {A B : Type}

/-- The `AbelianGroup` interface of operators/integrate.ts. -/
structure AbelianGroupOps (A : Type) where
  zero : A
  add : A → A → A
  subtract : A → A → A
  negate : A → A

/-- The abelian-group laws the spec requires of a group witness. -/
structure IsAbelianGroup (G : AbelianGroupOps A) : Prop where
  add_comm : ∀ a b, G.add a b = G.add b a
  add_assoc : ∀ a b c, G.add (G.add a b) c = G.add a (G.add b c)
  zero_add : ∀ a, G.add G.zero a = a
  add_neg : ∀ a, G.add a (G.negate a) = G.zero
  sub_def : ∀ a b, G.subtract a b = G.add a (G.negate b)

/-- A stream (stream.ts): a sparse time-indexed container, reading unset
times as the constructor default, with set entries in insertion order. -/
structure DStream (A : Type) where
  entries : List (Nat × A)
  dflt : A

/-- `Stream.at`: the stored value, or the default. -/
def DStream.atTime (s : DStream A) (t : Nat) : A :=
  match s.entries.find? (fun p => decide (p.1 = t)) with
  | some p => p.2
  | none => s.dflt

/-- `Map.set`: overwrite the entry in place if the time is present, append
otherwise. -/
def entriesSet : List (Nat × A) → Nat → A → List (Nat × A)
  | [], t, v => [(t, v)]
  | p :: rest, t, v =>
      if p.1 = t then (t, v) :: rest else p :: entriesSet rest t v

/-- `Stream.set` (the `currentTime` watermark is not needed by any claim and
is not modelled). -/
def DStream.setT (s : DStream A) (t : Nat) (v : A) : DStream A :=
  ⟨entriesSet s.entries t v, s.dflt⟩

/-- The running accumulator of `integrate` after processing times 0..t. -/
def integAcc (G : AbelianGroupOps A) (s : DStream A) : Nat → A
  | 0 => G.add G.zero (s.atTime 0)
  | t + 1 => G.add (integAcc G s t) (s.atTime (t + 1))

/-- Largest set time (the `Math.max(...times, -1)` of integrate.ts, for a
nonempty entry list). -/
def maxTimeN (l : List Nat) : Nat := l.foldr max 0

/-- `integrate` (the gap-inclusive version exported by operators/integrate.ts):
walk every time from 0 to the largest set time, accumulating with
`group.add` and setting the output at each step; empty input produces the
empty stream.  The output entries are exactly the distinct times
0..maxTime, in order, so the JS `output.set` calls append in order. -/
def integrate (G : AbelianGroupOps A) (s : DStream A) : DStream A :=
  if s.entries.isEmpty then ⟨[], G.zero⟩
  else
    ⟨(List.range (maxTimeN (s.entries.map (fun p => p.1)) + 1)).map
      (fun t => (t, integAcc G s t)), G.zero⟩

/-- `differentiate` (stateful-top-k.ts, the exported stream operator):
set `s[t] − s[t−1]` (with `s[−1] = zero`) at every set time of the input,
in entry order.  A JS `Map` has distinct keys, so the `output.set` calls
append in order. -/
def differentiate (G : AbelianGroupOps A) (s : DStream A) : DStream A :=
  ⟨s.entries.map (fun p =>
    (p.1, G.subtract p.2 (if 0 < p.1 then s.atTime (p.1 - 1) else G.zero))),
   G.zero⟩

/-- `delay` (operators/delay.ts, the default-value form): output default is
the supplied default value, time 0 is set to it, and every input entry is
shifted one step later. -/
def delayOp (dfltV : A) (s : DStream A) : DStream A :=
  ⟨(0, dfltV) :: s.entries.map (fun p => (p.1 + 1, p.2)), dfltV⟩

/-- `lift` (operators/lift.ts): apply `f` at every set time; the output
stream's default is `f(input.at(0))` as written in the source. -/
def liftOp (f : A → B) (s : DStream A) : DStream B :=
  ⟨s.entries.map (fun p => (p.1, f p.2)), f (s.atTime 0)⟩

end StreamDefs

section BilinearDefs

variable {A B C : Type}

/-- The closure state of `optimizeBilinear` (optimization.ts): the two
cumulative inputs and the last processed time, persisting across
executions. -/
structure BilinState (A B : Type) where
  cumA : A
  cumB : B
  lastTime : Int

/-- One loop iteration of the stream operator returned by
`optimizeBilinear`: skip the entry when its time is not beyond
`lastProcessedTime`, otherwise emit the guarded three-term bilinear delta
and advance the state.  `isEmptyA`/`isEmptyB` model the `(x as any).isEmpty()`
casts. -/
def bilinStep (op : A → B → C) (GA : AbelianGroupOps A) (GB : AbelianGroupOps B)
    (GC : AbelianGroupOps C) (isEmptyA : A → Bool) (isEmptyB : B → Bool)
    (acc : DStream C × BilinState A B) (e : Nat × (A × B)) :
    DStream C × BilinState A B :=
  let (out, st) := acc
  let t := e.1
  let dA := e.2.1
  let dB := e.2.2
  if (t : Int) ≤ st.lastTime then (out, st)
  else
    let r0 := GC.zero
    let r1 := if ¬isEmptyA dA ∧ ¬isEmptyB dB then GC.add r0 (op dA dB) else r0
    let r2 := if ¬isEmptyA dA ∧ ¬isEmptyB st.cumB then GC.add r1 (op dA st.cumB) else r1
    let r3 := if ¬isEmptyA st.cumA ∧ ¬isEmptyB dB then GC.add r2 (op st.cumA dB) else r2
    (out.setT t r3, ⟨GA.add st.cumA dA, GB.add st.cumB dB, (t : Int)⟩)

/-- One execution of the stream operator returned by `optimizeBilinear`, as
an explicit state transformer: the closure state survives between
executions, so `execute` takes and returns it. -/
def runBilinear (op : A → B → C) (GA : AbelianGroupOps A) (GB : AbelianGroupOps B)
    (GC : AbelianGroupOps C) (isEmptyA : A → Bool) (isEmptyB : B → Bool)
    (st : BilinState A B) (input : DStream (A × B)) :
    DStream C × BilinState A B :=
  input.entries.foldl (bilinStep op GA GB GC isEmptyA isEmptyB) (⟨[], GC.zero⟩, st)

/-- The fresh closure state of `optimizeBilinear`. -/
def initBilin (GA : AbelianGroupOps A) (GB : AbelianGroupOps B) : BilinState A B :=
  ⟨GA.zero, GB.zero, -1⟩

end BilinearDefs

section InvariantDefs

variable {T K : Type} [DecidableEq K] (keyOf : T → K)

/-- Invariant tying the `StatefulTopK` sorted array to the entry sequence
processed so far (valid while no running cumulative weight dips negative):
no duplicate keys, strictly positive stored weights, and stored weight =
cumulative delta weight at every key. -/
def TInv (es els : List (T × Int)) : Prop :=
  (els.map (fun p => keyOf p.1)).Nodup ∧ (∀ p ∈ els, 0 < p.2) ∧
  ∀ k : K, weightAt keyOf els k = weightAt keyOf es k

/-- The (key, weight) projection of a Z-set; semantic weights only depend on
it. -/
def kwOf (l : ZSet T) : List (K × Int) := l.map (fun p => (keyOf p.1, p.2))

end InvariantDefs

section ConcreteDefs

/-- Identity serialization for `Nat` records (JSON.stringify is injective on
numbers). -/
def idNat : Nat → Nat := fun n => n

/-- Ascending numeric comparator, the shape of `(a, b) => a - b`. -/
def cmpNat : Nat → Nat → Int := fun x y => (x : Int) - (y : Int)

/-- Identity serialization for `String` records. -/
def idStr : String → String := fun s => s

/-- The concrete `AbelianGroup` witness on integers used to instantiate
stream theorems. -/
def intGroup : AbelianGroupOps Int :=
  ⟨0, fun a b => a + b, fun a b => a - b, fun a => -a⟩

/-- `new ZSetGroup<number>()` over Nat records with identity
serialization. -/
def zsetNatGroup : AbelianGroupOps (ZSet Nat) :=
  ⟨[], groupAdd idNat, groupSub idNat, groupNegate⟩

/-- `new ZSetGroup<[number, number]>()` for the joined pairs. -/
def zsetNatPairGroup : AbelianGroupOps (ZSet (Nat × Nat)) :=
  ⟨[], groupAdd (pairKey idNat idNat), groupSub (pairKey idNat idNat), groupNegate⟩

/-- `Circuit.equiJoin(id, id).execute` on Nat Z-sets: the stream operator
built by `optimizeBilinear` over `ZSetOperators.equiJoin`, with its closure
state passed explicitly. -/
def equiJoinCircuit (st : BilinState (ZSet Nat) (ZSet Nat))
    (input : DStream (ZSet Nat × ZSet Nat)) :
    DStream (ZSet (Nat × Nat)) × BilinState (ZSet Nat) (ZSet Nat) :=
  runBilinear (fun a b => equiJoin idNat idNat idNat idNat a b)
    zsetNatGroup zsetNatGroup zsetNatPairGroup List.isEmpty List.isEmpty st input

/-- A one-entry input stream: time 0 carries Δa = {1↦1}, Δb = {1↦1}. -/
def circuitInput : DStream (ZSet Nat × ZSet Nat) :=
  ⟨[(0, ([(1, 1)], [(1, 1)]))], ([], [])⟩

end ConcreteDefs

section CoreLemmas

variable {T K : Type} [DecidableEq K] (keyOf : T → K)

theorem weightAt_nil (k : K) : weightAt keyOf ([] : ZSet T) k = 0 := rfl

theorem weightAt_cons (p : T × Int) (z : ZSet T) (k : K) :
    weightAt keyOf (p :: z) k = (if keyOf p.1 = k then p.2 else 0) + weightAt keyOf z k := rfl

theorem weightAt_append (a b : ZSet T) (k : K) :
    weightAt keyOf (a ++ b) k = weightAt keyOf a k + weightAt keyOf b k := by
  induction a with
  | nil => simp [weightAt]
  | cons p rest ih => simp [weightAt, ih]; ring

theorem weightAt_negate (a : ZSet T) (k : K) :
    weightAt keyOf (groupNegate a) k = - weightAt keyOf a k := by
  induction a with
  | nil => simp [groupNegate, weightAt]
  | cons p rest ih =>
      simp only [groupNegate, List.map_cons, weightAt] at *
      rw [ih]
      by_cases h : keyOf p.1 = k
      · simp [h]; ring
      · simp [h]

theorem mem_firstKeys (z : ZSet T) (k : K) :
    k ∈ firstKeys keyOf z ↔ ∃ p ∈ z, keyOf p.1 = k := by
  induction z with
  | nil => simp [firstKeys]
  | cons p rest ih =>
      simp only [firstKeys, List.mem_cons, List.mem_filter]
      constructor
      · rintro (h | ⟨h1, _⟩)
        · exact ⟨p, Or.inl rfl, h.symm⟩
        · obtain ⟨q, hq, hk⟩ := ih.mp h1
          exact ⟨q, Or.inr hq, hk⟩
      · rintro ⟨q, hq, hk⟩
        rcases hq with h | h
        · left; rw [h] at hk; exact hk.symm
        · by_cases he : k = keyOf p.1
          · left; exact he
          · right
            exact ⟨ih.mpr ⟨q, h, hk⟩, by simpa using he⟩

theorem nodup_firstKeys (z : ZSet T) : (firstKeys keyOf z).Nodup := by
  induction z with
  | nil => simp [firstKeys]
  | cons p rest ih =>
      simp only [firstKeys, List.nodup_cons]
      refine ⟨fun hmem => ?_, List.Nodup.filter _ ih⟩
      have h2 := (List.mem_filter.mp hmem).2
      simp at h2

theorem weightAt_eq_zero_of_not_mem (z : ZSet T) (k : K)
    (h : k ∉ firstKeys keyOf z) : weightAt keyOf z k = 0 := by
  induction z with
  | nil => rfl
  | cons p rest ih =>
      rw [mem_firstKeys] at h
      push_neg at h
      have h1 : keyOf p.1 ≠ k := h p (List.mem_cons_self ..)
      have h2 : weightAt keyOf rest k = 0 := by
        apply ih
        rw [mem_firstKeys]
        push_neg
        exact fun q hq => h q (List.mem_cons_of_mem _ hq)
      simp [weightAt, h1, h2]

theorem find?_key_spec (z : ZSet T) (k : K) (p : T × Int)
    (h : z.find? (fun q => decide (keyOf q.1 = k)) = some p) : keyOf p.1 = k := by
  simpa using List.find?_some h

theorem weightAt_filterMap (ks : List K) (f : K → Option (T × Int))
    (hf : ∀ k p, f k = some p → keyOf p.1 = k) (hnd : ks.Nodup) (k : K) :
    weightAt keyOf (ks.filterMap f) k =
      if k ∈ ks then (match f k with | some p => p.2 | none => 0) else 0 := by
  induction ks with
  | nil => simp [weightAt]
  | cons k' ks' ih =>
      have hnd' : ks'.Nodup := hnd.of_cons
      have hk'mem : k' ∉ ks' := by
        intro hc
        exact (List.nodup_cons.mp hnd).1 hc
      cases hfk' : f k' with
      | none =>
          rw [List.filterMap_cons_none hfk', ih hnd']
          by_cases he : k = k'
          · subst he
            simp [hk'mem, hfk']
          · simp [List.mem_cons, he]
      | some p =>
          rw [List.filterMap_cons_some hfk', weightAt_cons, ih hnd']
          have hkey : keyOf p.1 = k' := hf _ _ hfk'
          by_cases he : k = k'
          · subst he
            simp [hkey, hk'mem, hfk']
          · have : keyOf p.1 ≠ k := by rw [hkey]; exact fun hc => he hc.symm
            simp [this, List.mem_cons, he]

theorem mergeBody_key_spec (z : ZSet T) (k' : K) (p : T × Int)
    (hp : (z.find? (fun q => decide (keyOf q.1 = k'))).bind (fun q =>
      if weightAt keyOf z k' = 0 then none
      else some (q.1, weightAt keyOf z k')) = some p) :
    keyOf p.1 = k' ∧ p.2 = weightAt keyOf z k' ∧ p.2 ≠ 0 := by
  rcases hfind : z.find? (fun q => decide (keyOf q.1 = k')) with _ | q
  · rw [hfind] at hp; exact absurd hp (by simp)
  · rw [hfind, Option.some_bind] at hp
    by_cases hw : weightAt keyOf z k' = 0
    · rw [if_pos hw] at hp; exact absurd hp (by simp)
    · rw [if_neg hw] at hp
      have hpq : p = (q.1, weightAt keyOf z k') := by
        injection hp with h; exact h.symm
      subst hpq
      exact ⟨find?_key_spec keyOf z k' q hfind, rfl, hw⟩

theorem weightAt_mergeRecords (z : ZSet T) (k : K) :
    weightAt keyOf (mergeRecords keyOf z) k = weightAt keyOf z k := by
  rw [mergeRecords, weightAt_filterMap]
  · by_cases hmem : k ∈ firstKeys keyOf z
    · simp only [hmem, if_true]
      obtain ⟨p, hp, hkp⟩ := (mem_firstKeys keyOf z k).mp hmem
      have hsome : (z.find? (fun q => decide (keyOf q.1 = k))).isSome := by
        rw [List.find?_isSome]
        exact ⟨p, hp, by simpa using hkp⟩
      obtain ⟨q, hq⟩ := Option.isSome_iff_exists.mp hsome
      rw [hq, Option.some_bind]
      by_cases hw : weightAt keyOf z k = 0
      · simp [hw]
      · simp [hw]
    · simp [hmem, weightAt_eq_zero_of_not_mem keyOf z k hmem]
  · exact fun k' p hp => (mergeBody_key_spec keyOf z k' p hp).1
  · exact nodup_firstKeys keyOf z

theorem mem_mergeRecords (z : ZSet T) (p : T × Int) (hp : p ∈ mergeRecords keyOf z) :
    p.2 = weightAt keyOf z (keyOf p.1) ∧ p.2 ≠ 0 := by
  rw [mergeRecords] at hp
  obtain ⟨k, _, hfk⟩ := List.mem_filterMap.mp hp
  obtain ⟨hk1, hk2, hk3⟩ := mergeBody_key_spec keyOf z k p hfk
  rw [hk1.symm] at hk2
  exact ⟨hk2, hk3⟩

theorem map_keys_filterMap_sublist (ks : List K) (f : K → Option (T × Int))
    (hf : ∀ k p, f k = some p → keyOf p.1 = k) :
    ((ks.filterMap f).map (fun p => keyOf p.1)).Sublist ks := by
  induction ks with
  | nil => simp
  | cons k' ks' ih =>
      cases hfk' : f k' with
      | none =>
          rw [List.filterMap_cons_none hfk']
          exact ih.cons k'
      | some p =>
          rw [List.filterMap_cons_some hfk', List.map_cons, hf _ _ hfk']
          exact ih.cons₂ k'

theorem wf_mergeRecords (z : ZSet T) : WF keyOf (mergeRecords keyOf z) := by
  constructor
  · apply List.Nodup.sublist _ (nodup_firstKeys keyOf z)
    rw [mergeRecords]
    apply map_keys_filterMap_sublist
    exact fun k' p hp => (mergeBody_key_spec keyOf z k' p hp).1
  · exact fun p hp => (mem_mergeRecords keyOf z p hp).2

theorem weightAt_eq_zero_of_key_not_mem (z : ZSet T) (k : K)
    (h : k ∉ z.map (fun p => keyOf p.1)) : weightAt keyOf z k = 0 := by
  apply weightAt_eq_zero_of_not_mem
  rw [mem_firstKeys]
  rintro ⟨p, hp, hk⟩
  exact h (List.mem_map.mpr ⟨p, hp, hk⟩)

theorem firstKeys_eq_map_of_nodup (z : ZSet T)
    (h : (z.map (fun p => keyOf p.1)).Nodup) :
    firstKeys keyOf z = z.map (fun p => keyOf p.1) := by
  induction z with
  | nil => rfl
  | cons p rest ih =>
      rw [List.map_cons] at h ⊢
      have hnotin : keyOf p.1 ∉ rest.map (fun q => keyOf q.1) := (List.nodup_cons.mp h).1
      rw [firstKeys, ih (List.nodup_cons.mp h).2]
      congr 1
      apply List.filter_eq_self.mpr
      intro k hk
      have : k ≠ keyOf p.1 := by
        intro he
        subst he
        exact hnotin hk
      simpa using this

theorem mergeRecords_eq_self (z : ZSet T) (h : WF keyOf z) :
    mergeRecords keyOf z = z := by
  obtain ⟨hnd, hnz⟩ := h
  induction z with
  | nil => rfl
  | cons p rest ih =>
      have hnd2 : (keyOf p.1 :: rest.map (fun q => keyOf q.1)).Nodup := by
        simpa using hnd
      have hnotin : keyOf p.1 ∉ rest.map (fun q => keyOf q.1) := (List.nodup_cons.mp hnd2).1
      have hnd' : (rest.map (fun q => keyOf q.1)).Nodup := (List.nodup_cons.mp hnd2).2
      have hwrest : weightAt keyOf rest (keyOf p.1) = 0 :=
        weightAt_eq_zero_of_key_not_mem keyOf rest (keyOf p.1) hnotin
      have hwp : weightAt keyOf (p :: rest) (keyOf p.1) = p.2 := by
        rw [weightAt_cons, hwrest]
        simp
      have hfind : (p :: rest).find? (fun q => decide (keyOf q.1 = keyOf p.1)) = some p := by
        rw [List.find?_cons_of_pos]
        simp
      have htail :
          (rest.map (fun q => keyOf q.1)).filterMap (fun k =>
            ((p :: rest).find? (fun q => decide (keyOf q.1 = k))).bind (fun q =>
              if weightAt keyOf (p :: rest) k = 0 then none
              else some (q.1, weightAt keyOf (p :: rest) k))) = rest := by
        have hcongr : ∀ k ∈ rest.map (fun q => keyOf q.1),
            ((p :: rest).find? (fun q => decide (keyOf q.1 = k))).bind (fun q =>
              if weightAt keyOf (p :: rest) k = 0 then none
              else some (q.1, weightAt keyOf (p :: rest) k))
            = (rest.find? (fun q => decide (keyOf q.1 = k))).bind (fun q =>
              if weightAt keyOf rest k = 0 then none
              else some (q.1, weightAt keyOf rest k)) := by
          intro k hk
          have hkne : keyOf p.1 ≠ k := by
            intro he
            subst he
            exact hnotin hk
          have hfind2 : (p :: rest).find? (fun q => decide (keyOf q.1 = k))
              = rest.find? (fun q => decide (keyOf q.1 = k)) := by
            rw [List.find?_cons_of_neg]
            simpa using hkne
          have hw2 : weightAt keyOf (p :: rest) k = weightAt keyOf rest k := by
            rw [weightAt_cons, if_neg hkne]
            ring
          rw [hfind2, hw2]
        rw [List.filterMap_congr hcongr]
        have hrec := ih hnd' (fun q hq => hnz q (List.mem_cons_of_mem _ hq))
        rw [mergeRecords, firstKeys_eq_map_of_nodup keyOf _ hnd'] at hrec
        exact hrec
      have hpnz : p.2 ≠ 0 := hnz p (List.mem_cons_self ..)
      rw [mergeRecords, firstKeys_eq_map_of_nodup keyOf _ hnd, List.map_cons,
        List.filterMap_cons, hfind, Option.some_bind, hwp, if_neg hpnz, htail]

theorem weightAt_groupAdd (a b : ZSet T) (k : K) :
    weightAt keyOf (groupAdd keyOf a b) k = weightAt keyOf a k + weightAt keyOf b k := by
  rw [groupAdd]
  by_cases ha : a.isEmpty
  · rw [List.isEmpty_iff.mp ha]
    simp [weightAt]
  · rw [if_neg (by simpa using ha)]
    by_cases hb : b.isEmpty
    · rw [List.isEmpty_iff.mp hb]
      simp [weightAt]
    · rw [if_neg (by simpa using hb), weightAt_mergeRecords, weightAt_append]

theorem weightAt_groupSub (a b : ZSet T) (k : K) :
    weightAt keyOf (groupSub keyOf a b) k = weightAt keyOf a k - weightAt keyOf b k := by
  rw [groupSub, weightAt_groupAdd, weightAt_negate]
  ring

theorem zeq_iff_zeqB (a b : ZSet T) : zeq keyOf a b ↔ zeqB keyOf a b = true := by
  constructor
  · intro h
    rw [zeqB, List.all_eq_true]
    intro k _
    exact decide_eq_true (h k)
  · intro h k
    rw [zeqB, List.all_eq_true] at h
    by_cases hka : k ∈ a.map (fun p => keyOf p.1)
    · exact of_decide_eq_true (h k (List.mem_append.mpr (Or.inl hka)))
    · by_cases hkb : k ∈ b.map (fun p => keyOf p.1)
      · exact of_decide_eq_true (h k (List.mem_append.mpr (Or.inr hkb)))
      · rw [weightAt_eq_zero_of_key_not_mem keyOf a k hka,
          weightAt_eq_zero_of_key_not_mem keyOf b k hkb]

end CoreLemmas

section C4

variable {T K : Type} [DecidableEq K] (keyOf : T → K)

/-- C4: for all Z-sets a, b, c the `ZSetGroup` operations satisfy, up to
semantic equality (equal canonical key→weight mappings after
`mergeRecords`): commutativity, associativity, identity with `zero()`, and
inverse `add(a, negate(a)) == zero()`. -/
theorem C4_zset_group_laws (a b c : ZSet T) :
    zeq keyOf (groupAdd keyOf a b) (groupAdd keyOf b a) ∧
    zeq keyOf (groupAdd keyOf (groupAdd keyOf a b) c)
      (groupAdd keyOf a (groupAdd keyOf b c)) ∧
    zeq keyOf (groupAdd keyOf a (groupZero : ZSet T)) a ∧
    zeq keyOf (groupAdd keyOf a (groupNegate a)) (groupZero : ZSet T) := by
  refine ⟨fun k => ?_, fun k => ?_, fun k => ?_, fun k => ?_⟩
  · rw [weightAt_groupAdd, weightAt_groupAdd]; ring
  · rw [weightAt_groupAdd, weightAt_groupAdd, weightAt_groupAdd, weightAt_groupAdd]; ring
  · rw [weightAt_groupAdd]; simp [groupZero, weightAt]
  · rw [weightAt_groupAdd, weightAt_negate]; simp [groupZero, weightAt]

end C4

section SortLemmas

variable {T K : Type} [DecidableEq K] (keyOf : T → K) (cmp : T → T → Int)

theorem perm_insertByCmp (x : T × Int) (l : List (T × Int)) :
    (insertByCmp cmp x l).Perm (x :: l) := by
  induction l with
  | nil => rfl
  | cons y ys ih =>
      rw [insertByCmp]
      by_cases h : cmp y.1 x.1 < 0
      · rw [if_pos h]
        exact (ih.cons y).trans (List.Perm.swap x y ys)
      · rw [if_neg h]

theorem perm_sortByCmp (l : List (T × Int)) : (sortByCmp cmp l).Perm l := by
  induction l with
  | nil => rfl
  | cons x xs ih =>
      rw [sortByCmp]
      exact (perm_insertByCmp cmp x (sortByCmp cmp xs)).trans (ih.cons x)

theorem cmp_le_of_not_lt (hc : CmpSpec keyOf cmp) {x y : T}
    (h : ¬ cmp y x < 0) : cmp x y ≤ 0 := by
  rcases lt_or_eq_of_le (not_lt.mp h) with hgt | heq
  · rcases hc.total x y with h1 | h1
    · exact h1
    · exact absurd h1 (by omega)
  · have hk : keyOf y = keyOf x := (hc.tie_iff y x).mp heq.symm
    exact le_of_eq ((hc.tie_iff x y).mpr hk.symm)

theorem sorted_insertByCmp (hc : CmpSpec keyOf cmp) (x : T × Int)
    (l : List (T × Int)) (hl : l.Pairwise (fun p q => cmp p.1 q.1 ≤ 0)) :
    (insertByCmp cmp x l).Pairwise (fun p q => cmp p.1 q.1 ≤ 0) := by
  induction l with
  | nil => simp [insertByCmp]
  | cons y ys ih =>
      rw [insertByCmp]
      obtain ⟨hy, hys⟩ := List.pairwise_cons.mp hl
      by_cases h : cmp y.1 x.1 < 0
      · rw [if_pos h]
        refine List.pairwise_cons.mpr ⟨?_, ih hys⟩
        intro z hz
        rcases List.mem_cons.mp ((perm_insertByCmp cmp x ys).mem_iff.mp hz) with hzx | hzys
        · rw [hzx]; exact le_of_lt h
        · exact hy z hzys
      · rw [if_neg h]
        refine List.pairwise_cons.mpr ⟨?_, hl⟩
        intro z hz
        rcases List.mem_cons.mp hz with hzy | hzys
        · rw [hzy]; exact cmp_le_of_not_lt keyOf cmp hc h
        · exact hc.trans _ _ _ (cmp_le_of_not_lt keyOf cmp hc h) (hy z hzys)

theorem sorted_sortByCmp (hc : CmpSpec keyOf cmp) (l : List (T × Int)) :
    (sortByCmp cmp l).Pairwise (fun p q => cmp p.1 q.1 ≤ 0) := by
  induction l with
  | nil => simp [sortByCmp]
  | cons x xs ih => exact sorted_insertByCmp keyOf cmp hc x _ ih

theorem weightAt_perm {l1 l2 : ZSet T} (h : l1.Perm l2) (k : K) :
    weightAt keyOf l1 k = weightAt keyOf l2 k := by
  induction h with
  | nil => rfl
  | cons x _ ih => rw [weightAt_cons, weightAt_cons, ih]
  | swap x y l => rw [weightAt_cons, weightAt_cons, weightAt_cons, weightAt_cons]; ring
  | trans _ _ ih1 ih2 => rw [ih1, ih2]

theorem nodupKeys_perm {l1 l2 : ZSet T} (h : l1.Perm l2)
    (hnd : (l1.map (fun p => keyOf p.1)).Nodup) :
    (l2.map (fun p => keyOf p.1)).Nodup :=
  ((h.map (fun p => keyOf p.1)).nodup_iff).mp hnd

theorem weightAt_eq_of_mem_nodup {l : ZSet T} (hnd : (l.map (fun p => keyOf p.1)).Nodup)
    {p : T × Int} (hp : p ∈ l) : weightAt keyOf l (keyOf p.1) = p.2 := by
  induction l with
  | nil => cases hp
  | cons q rest ih =>
      rw [List.map_cons, List.nodup_cons] at hnd
      rcases List.mem_cons.mp hp with hq | hrest
      · subst hq
        rw [weightAt_cons, if_pos rfl,
          weightAt_eq_zero_of_key_not_mem keyOf rest _ hnd.1]
        ring
      · have hne : keyOf q.1 ≠ keyOf p.1 := by
          intro he
          exact hnd.1 (he ▸ List.mem_map.mpr ⟨p, hrest, rfl⟩)
        rw [weightAt_cons, if_neg hne, ih hnd.2 hrest]
        ring

theorem exists_mem_of_weightAt_ne_zero {l : ZSet T} {k : K}
    (h : weightAt keyOf l k ≠ 0) : ∃ p ∈ l, keyOf p.1 = k := by
  by_contra hc
  push_neg at hc
  refine h (weightAt_eq_zero_of_key_not_mem keyOf l k ?_)
  intro hmem
  obtain ⟨p, hp, he⟩ := List.mem_map.mp hmem
  exact hc p hp he

theorem weightAt_nonneg_of_forall {l : ZSet T} (h : ∀ p ∈ l, 0 ≤ p.2) (k : K) :
    0 ≤ weightAt keyOf l k := by
  induction l with
  | nil => simp [weightAt]
  | cons p rest ih =>
      rw [weightAt_cons]
      have h1 : 0 ≤ (if keyOf p.1 = k then p.2 else 0) := by
        by_cases he : keyOf p.1 = k
        · rw [if_pos he]; exact h p (List.mem_cons_self ..)
        · rw [if_neg he]
      have h2 := ih (fun q hq => h q (List.mem_cons_of_mem _ hq))
      omega

theorem prefixNonneg_of_forall (es : List (T × Int)) (h : ∀ p ∈ es, 0 ≤ p.2) :
    PrefixNonneg keyOf es := by
  intro n k
  exact weightAt_nonneg_of_forall keyOf (fun p hp => h p (List.take_subset n es hp)) k

theorem prefixNonneg_of_append {es : List (T × Int)} {e : T × Int}
    (h : PrefixNonneg keyOf (es ++ [e])) : PrefixNonneg keyOf es := by
  intro n k
  by_cases hn : n ≤ es.length
  · have := h n k
    rwa [List.take_append_of_le_length hn] at this
  · have := h es.length k
    rw [List.take_left, ← List.take_of_length_le (le_of_not_le hn)] at this
    exact this

theorem prefixNonneg_last {es : List (T × Int)}
    (h : PrefixNonneg keyOf es) (k : K) : 0 ≤ weightAt keyOf es k := by
  have := h es.length k
  rwa [List.take_length] at this

end SortLemmas

section UpdateLemmas

variable {T K : Type} [DecidableEq K] (keyOf : T → K) (cmp : T → T → Int)

theorem fst_mem_updateWeightFirst {k : K} {w : Int} {l : List (T × Int)}
    {z : T × Int} (hz : z ∈ updateWeightFirst keyOf k w l) :
    ∃ q ∈ l, q.1 = z.1 := by
  induction l with
  | nil => cases hz
  | cons p rest ih =>
      rw [updateWeightFirst] at hz
      by_cases h : keyOf p.1 = k
      · rw [if_pos h] at hz
        by_cases h2 : p.2 + w ≤ 0
        · rw [if_pos h2] at hz
          exact ⟨z, List.mem_cons_of_mem _ hz, rfl⟩
        · rw [if_neg h2] at hz
          rcases List.mem_cons.mp hz with he | hrest
          · exact ⟨p, List.mem_cons_self .., by rw [he]⟩
          · exact ⟨z, List.mem_cons_of_mem _ hrest, rfl⟩
      · rw [if_neg h] at hz
        rcases List.mem_cons.mp hz with he | hrest
        · exact ⟨p, List.mem_cons_self .., by rw [he]⟩
        · obtain ⟨q, hq, he⟩ := ih hrest
          exact ⟨q, List.mem_cons_of_mem _ hq, he⟩

theorem keys_updateWeightFirst_sublist (k : K) (w : Int) (l : List (T × Int)) :
    ((updateWeightFirst keyOf k w l).map (fun p => keyOf p.1)).Sublist
      (l.map (fun p => keyOf p.1)) := by
  induction l with
  | nil => simp [updateWeightFirst]
  | cons p rest ih =>
      rw [updateWeightFirst]
      by_cases h : keyOf p.1 = k
      · rw [if_pos h]
        by_cases h2 : p.2 + w ≤ 0
        · rw [if_pos h2, List.map_cons]
          exact (List.Sublist.refl _).cons _
        · rw [if_neg h2, List.map_cons, List.map_cons]
      · rw [if_neg h, List.map_cons, List.map_cons]
        exact ih.cons₂ _

theorem pos_updateWeightFirst {k : K} {w : Int} {l : List (T × Int)}
    (hpos : ∀ p ∈ l, 0 < p.2) :
    ∀ z ∈ updateWeightFirst keyOf k w l, 0 < z.2 := by
  induction l with
  | nil => intro z hz; cases hz
  | cons p rest ih =>
      intro z hz
      rw [updateWeightFirst] at hz
      by_cases h : keyOf p.1 = k
      · rw [if_pos h] at hz
        by_cases h2 : p.2 + w ≤ 0
        · rw [if_pos h2] at hz
          exact hpos z (List.mem_cons_of_mem _ hz)
        · rw [if_neg h2] at hz
          rcases List.mem_cons.mp hz with he | hrest
          · rw [he]; omega
          · exact hpos z (List.mem_cons_of_mem _ hrest)
      · rw [if_neg h] at hz
        rcases List.mem_cons.mp hz with he | hrest
        · rw [he]; exact hpos p (List.mem_cons_self ..)
        · exact ih (fun q hq => hpos q (List.mem_cons_of_mem _ hq)) z hrest

theorem pairwise_updateWeightFirst {k : K} {w : Int} {l : List (T × Int)}
    (hl : l.Pairwise (fun p q => cmp p.1 q.1 ≤ 0)) :
    (updateWeightFirst keyOf k w l).Pairwise (fun p q => cmp p.1 q.1 ≤ 0) := by
  induction l with
  | nil => simp [updateWeightFirst]
  | cons p rest ih =>
      obtain ⟨hp, hrest⟩ := List.pairwise_cons.mp hl
      rw [updateWeightFirst]
      by_cases h : keyOf p.1 = k
      · rw [if_pos h]
        by_cases h2 : p.2 + w ≤ 0
        · rw [if_pos h2]; exact hrest
        · rw [if_neg h2]
          exact List.pairwise_cons.mpr ⟨hp, hrest⟩
      · rw [if_neg h]
        refine List.pairwise_cons.mpr ⟨?_, ih hrest⟩
        intro z hz
        obtain ⟨q, hq, he⟩ := fst_mem_updateWeightFirst keyOf hz
        rw [← he]
        exact hp q hq

theorem weightAt_updateWeightFirst {k : K} {w : Int} {l : List (T × Int)}
    (hnd : (l.map (fun p => keyOf p.1)).Nodup)
    (hmem : k ∈ l.map (fun p => keyOf p.1))
    (hnn : 0 ≤ weightAt keyOf l k + w) (k' : K) :
    weightAt keyOf (updateWeightFirst keyOf k w l) k' =
      weightAt keyOf l k' + (if k' = k then w else 0) := by
  induction l with
  | nil => cases hmem
  | cons p rest ih =>
      rw [List.map_cons, List.nodup_cons] at hnd
      rw [updateWeightFirst]
      by_cases h : keyOf p.1 = k
      · have hkrest : weightAt keyOf rest k = 0 :=
          weightAt_eq_zero_of_key_not_mem keyOf rest k (h ▸ hnd.1)
        rw [if_pos h]
        by_cases h2 : p.2 + w ≤ 0
        · have hz : p.2 + w = 0 := by
            rw [weightAt_cons, if_pos h, hkrest] at hnn; omega
          rw [if_pos h2]
          by_cases he : k' = k
          · subst he
            rw [weightAt_cons, if_pos h, hkrest, if_pos rfl]
            omega
          · rw [weightAt_cons, if_neg (fun hc : keyOf p.1 = k' => he (hc ▸ h)), if_neg he]
            ring
        · rw [if_neg h2]
          by_cases he : k' = k
          · subst he
            rw [weightAt_cons, weightAt_cons, if_pos h, if_pos h, if_pos rfl]
            ring
          · have hne : keyOf p.1 ≠ k' := fun hc : keyOf p.1 = k' => he (hc ▸ h)
            rw [weightAt_cons, weightAt_cons, if_neg hne, if_neg hne, if_neg he]
            ring
      · have hkne : k ∈ rest.map (fun p => keyOf p.1) := by
          rcases List.mem_cons.mp hmem with hc | hc
          · exact absurd hc.symm h
          · exact hc
        have hnn' : 0 ≤ weightAt keyOf rest k + w := by
          rw [weightAt_cons, if_neg h] at hnn; omega
        rw [if_neg h, weightAt_cons, weightAt_cons, ih hnd.2 hkne hnn']
        ring

end UpdateLemmas

section TopKInvariantLemmas

variable {T K : Type} [DecidableEq K] (keyOf : T → K) (cmp : T → T → Int)

theorem weightAt_append_singleton (es : List (T × Int)) (e : T × Int) (k : K) :
    weightAt keyOf (es ++ [e]) k =
      weightAt keyOf es k + (if keyOf e.1 = k then e.2 else 0) := by
  rw [weightAt_append, weightAt_cons, weightAt_nil]
  ring

theorem TInv_step {es els : List (T × Int)} (hInv : TInv keyOf es els) (e : T × Int)
    (hnn : ∀ k : K, 0 ≤ weightAt keyOf (es ++ [e]) k) :
    TInv keyOf (es ++ [e]) (processEntry keyOf cmp els e) := by
  obtain ⟨hnd, hpos, hw⟩ := hInv
  rw [processEntry]
  by_cases hany : els.any (fun p => decide (keyOf p.1 = keyOf e.1)) = true
  · have hmem : keyOf e.1 ∈ els.map (fun p => keyOf p.1) := by
      obtain ⟨p, hp, hpe⟩ := List.any_eq_true.mp hany
      exact List.mem_map.mpr ⟨p, hp, of_decide_eq_true hpe⟩
    rw [if_pos hany]
    have hnnk : 0 ≤ weightAt keyOf els (keyOf e.1) + e.2 := by
      have h1 := hnn (keyOf e.1)
      rw [weightAt_append_singleton, if_pos rfl, ← hw (keyOf e.1)] at h1
      exact h1
    have hndU := (keys_updateWeightFirst_sublist keyOf (keyOf e.1) e.2 els).nodup hnd
    have hposU := pos_updateWeightFirst keyOf hpos
        (k := keyOf e.1) (w := e.2)
    have hwU : ∀ k : K, weightAt keyOf (updateWeightFirst keyOf (keyOf e.1) e.2 els) k
        = weightAt keyOf (es ++ [e]) k := by
      intro k
      rw [weightAt_updateWeightFirst keyOf hnd hmem hnnk k,
        weightAt_append_singleton, hw k]
      by_cases hk : k = keyOf e.1
      · rw [if_pos hk, if_pos hk.symm]
      · rw [if_neg hk, if_neg (fun hc : keyOf e.1 = k => hk hc.symm)]
    by_cases hpose : 0 < e.2
    · rw [if_pos hpose]
      refine ⟨nodupKeys_perm keyOf (perm_sortByCmp cmp _).symm hndU,
        fun p hp => hposU p ((perm_sortByCmp cmp _).mem_iff.mp hp),
        fun k => (weightAt_perm keyOf (perm_sortByCmp cmp _) k).trans (hwU k)⟩
    · rw [if_neg hpose]
      exact ⟨hndU, hposU, hwU⟩
  · rw [if_neg hany]
    have hnotmem : keyOf e.1 ∉ els.map (fun p => keyOf p.1) := by
      intro hc
      obtain ⟨p, hp, he⟩ := List.mem_map.mp hc
      exact hany (List.any_eq_true.mpr ⟨p, hp, decide_eq_true he⟩)
    have hwke : weightAt keyOf els (keyOf e.1) = 0 :=
      weightAt_eq_zero_of_key_not_mem keyOf els _ hnotmem
    by_cases hpose : 0 < e.2
    · rw [if_pos hpose]
      have hnd2 : (((els ++ [e]).map (fun p => keyOf p.1))).Nodup := by
        rw [List.map_append]
        rw [List.nodup_append]
        refine ⟨hnd, by simp, ?_⟩
        intro k hka hkb
        simp only [List.map_cons, List.map_nil, List.mem_cons, List.not_mem_nil] at hkb
        rcases hkb with hkb | hkb
        · subst hkb; exact hnotmem hka
        · cases hkb
      have hpos2 : ∀ z ∈ els ++ [e], 0 < z.2 := by
        intro z hz
        rcases List.mem_append.mp hz with hz | hz
        · exact hpos z hz
        · rcases List.mem_cons.mp hz with hz | hz
          · rw [hz]; exact hpose
          · cases hz
      have hw2 : ∀ k : K, weightAt keyOf (els ++ [e]) k = weightAt keyOf (es ++ [e]) k := by
        intro k
        rw [weightAt_append_singleton, weightAt_append_singleton, hw k]
      refine ⟨nodupKeys_perm keyOf (perm_sortByCmp cmp _).symm hnd2,
        fun p hp => hpos2 p ((perm_sortByCmp cmp _).mem_iff.mp hp),
        fun k => (weightAt_perm keyOf (perm_sortByCmp cmp _) k).trans (hw2 k)⟩
    · rw [if_neg hpose]
      have h0 : e.2 = 0 := by
        have h1 := hnn (keyOf e.1)
        rw [weightAt_append_singleton, if_pos rfl, ← hw (keyOf e.1), hwke] at h1
        omega
      refine ⟨hnd, hpos, fun k => ?_⟩
      rw [hw k, weightAt_append_singleton, h0]
      by_cases hk : keyOf e.1 = k
      · rw [if_pos hk]; ring
      · rw [if_neg hk]; ring

theorem TInv_run (es : List (T × Int)) (hpre : PrefixNonneg keyOf es) :
    TInv keyOf es (es.foldl (processEntry keyOf cmp) []) := by
  induction es using List.reverseRecOn with
  | nil => exact ⟨by simp, by simp, fun k => rfl⟩
  | append_singleton es e ih =>
      rw [List.foldl_append, List.foldl_cons, List.foldl_nil]
      exact TInv_step keyOf cmp (ih (prefixNonneg_of_append keyOf hpre)) e
        (prefixNonneg_last keyOf hpre)

theorem sorted_run (hc : CmpSpec keyOf cmp) (es : List (T × Int)) :
    (es.foldl (processEntry keyOf cmp) []).Pairwise (fun p q => cmp p.1 q.1 ≤ 0) := by
  induction es using List.reverseRecOn with
  | nil => simp
  | append_singleton es e ih =>
      rw [List.foldl_append, List.foldl_cons, List.foldl_nil, processEntry]
      by_cases hany : (es.foldl (processEntry keyOf cmp) []).any
          (fun p => decide (keyOf p.1 = keyOf e.1)) = true
      · rw [if_pos hany]
        by_cases hpose : 0 < e.2
        · rw [if_pos hpose]
          exact sorted_sortByCmp keyOf cmp hc _
        · rw [if_neg hpose]
          exact pairwise_updateWeightFirst keyOf cmp ih
      · rw [if_neg hany]
        by_cases hpose : 0 < e.2
        · rw [if_pos hpose]
          exact sorted_sortByCmp keyOf cmp hc _
        · rw [if_neg hpose]
          exact ih

theorem sortedElements_processDeltas (limit off : Nat) (ds : List (ZSet T)) :
    (processDeltasTopK keyOf cmp limit off ds).sortedElements
      = ds.flatten.foldl (processEntry keyOf cmp) [] := by
  suffices h : ∀ st : TopKState T,
      ((ds.foldl (fun st d => (processIncrementTopK keyOf cmp limit off st d).2) st).sortedElements)
        = ds.flatten.foldl (processEntry keyOf cmp) st.sortedElements by
    exact h initTopK
  induction ds with
  | nil => intro st; rfl
  | cons d ds' ih =>
      intro st
      rw [List.foldl_cons, ih, List.flatten_cons, List.foldl_append]
      rfl

end TopKInvariantLemmas

section C5

variable {T K : Type} [DecidableEq K] (keyOf : T → K) (cmp : T → T → Int)

/-- C5 (amended): after every sequence of `StatefulTopK.processIncrement`
calls from fresh state IN WHICH NO RECORD'S RUNNING CUMULATIVE WEIGHT EVER
DIPS BELOW ZERO (entry by entry over the concatenated deltas), the internal
sorted sequence contains exactly those records whose cumulative weight —
the sum of all delta weights received for that record's serialization across
the whole sequence — is strictly positive, and no other record.  (Without
the non-negativity proviso the code violates the claim: a removal discards
any negative residue and a later positive delta re-inserts the record even
though its true cumulative weight is not positive; see the
counterexample.) -/
theorem C5_topk_support_amended (limit off : Nat) (ds : List (ZSet T))
    (hpre : PrefixNonneg keyOf ds.flatten) (k : K) :
    (∃ p ∈ (processDeltasTopK keyOf cmp limit off ds).sortedElements, keyOf p.1 = k)
      ↔ 0 < weightAt keyOf ds.flatten k := by
  rw [sortedElements_processDeltas]
  obtain ⟨hnd, hpos, hw⟩ := TInv_run keyOf cmp ds.flatten hpre
  constructor
  · rintro ⟨p, hp, hk⟩
    have h1 := weightAt_eq_of_mem_nodup keyOf hnd hp
    rw [hk] at h1
    rw [← hw k, h1]
    exact hpos p hp
  · intro h
    have h1 : weightAt keyOf (ds.flatten.foldl (processEntry keyOf cmp) []) k ≠ 0 := by
      rw [hw k]; omega
    exact exists_mem_of_weightAt_ne_zero keyOf h1

end C5

section C5Concrete

/-- C5 counterexample: deltas {a↦−1} then {a↦1}.  The first delta is ignored
(absent record, Δw ≤ 0), the second inserts the record with weight 1, so the
sorted sequence contains a record whose cumulative weight is 0, not
strictly positive — the claim as stated is false on the code. -/
theorem C5_counterexample :
    (∃ p ∈ (processDeltasTopK idNat cmpNat 10 0 [[(1, -1)], [(1, 1)]]).sortedElements,
        idNat p.1 = 1)
      ∧ weightAt idNat ([[(1, -1)], [(1, 1)]] : List (ZSet Nat)).flatten 1 = 0 := by
  decide

/-- Witness instantiating `C5_topk_support_amended` at a concrete run. -/
theorem C5_witness :
    (∃ p ∈ (processDeltasTopK idNat cmpNat 3 0 [[(5, 1)], [(5, 1)]]).sortedElements,
        idNat p.1 = 5)
      ↔ 0 < weightAt idNat ([[(5, 1)], [(5, 1)]] : List (ZSet Nat)).flatten 5 :=
  C5_topk_support_amended idNat cmpNat 3 0 [[(5, 1)], [(5, 1)]]
    (prefixNonneg_of_forall idNat _ (by decide)) 5

end C5Concrete

section C2Support

variable {T K : Type} [DecidableEq K] (keyOf : T → K) (cmp : T → T → Int)

theorem wf_groupAdd {a b : ZSet T} (ha : WF keyOf a) (hb : WF keyOf b) :
    WF keyOf (groupAdd keyOf a b) := by
  rw [groupAdd]
  by_cases hae : a.isEmpty
  · rw [if_pos hae]; exact hb
  · rw [if_neg hae]
    by_cases hbe : b.isEmpty
    · rw [if_pos hbe]; exact ha
    · rw [if_neg hbe]; exact wf_mergeRecords keyOf _

theorem wf_foldl_groupAdd {acc : ZSet T} (hacc : WF keyOf acc) (ds : List (ZSet T))
    (hds : ∀ d ∈ ds, WF keyOf d) : WF keyOf (ds.foldl (groupAdd keyOf) acc) := by
  induction ds generalizing acc with
  | nil => exact hacc
  | cons d ds' ih =>
      rw [List.foldl_cons]
      exact ih (wf_groupAdd keyOf hacc (hds d (List.mem_cons_self ..)))
        (fun d2 hd2 => hds d2 (List.mem_cons_of_mem _ hd2))

theorem wf_integratedInput (ds : List (ZSet T)) (hds : ∀ d ∈ ds, WF keyOf d) :
    WF keyOf (integratedInput keyOf ds) :=
  wf_foldl_groupAdd keyOf ⟨by simp, by simp⟩ ds hds

theorem weightAt_foldl_groupAdd (acc : ZSet T) (ds : List (ZSet T)) (k : K) :
    weightAt keyOf (ds.foldl (groupAdd keyOf) acc) k
      = weightAt keyOf acc k + weightAt keyOf ds.flatten k := by
  induction ds generalizing acc with
  | nil => simp [weightAt]
  | cons d ds' ih =>
      rw [List.foldl_cons, ih, List.flatten_cons, weightAt_append, weightAt_groupAdd]
      ring

theorem weightAt_integratedInput (ds : List (ZSet T)) (k : K) :
    weightAt keyOf (integratedInput keyOf ds) k = weightAt keyOf ds.flatten k := by
  rw [integratedInput, weightAt_foldl_groupAdd, weightAt_nil]
  ring

theorem weightAt_eq_of_kwOf_eq {l1 l2 : ZSet T} (h : kwOf keyOf l1 = kwOf keyOf l2)
    (k : K) : weightAt keyOf l1 k = weightAt keyOf l2 k := by
  induction l1 generalizing l2 with
  | nil =>
      have : l2 = [] := by
        have h2 : kwOf keyOf l2 = [] := h.symm
        rw [kwOf] at h2
        exact List.map_eq_nil_iff.mp h2
      rw [this]
  | cons p t1 ih =>
      cases l2 with
      | nil =>
          rw [kwOf, kwOf, List.map_cons] at h
          cases h
      | cons q t2 =>
          rw [kwOf, kwOf, List.map_cons, List.map_cons] at h
          injection h with h1 h2
          injection h1 with h3 h4
          rw [weightAt_cons, weightAt_cons, h3, h4, ih h2]

theorem kwOf_drop (l : ZSet T) (n : Nat) :
    kwOf keyOf (l.drop n) = (kwOf keyOf l).drop n := by
  rw [kwOf, kwOf, List.map_drop]

theorem kwOf_take (l : ZSet T) (n : Nat) :
    kwOf keyOf (l.take n) = (kwOf keyOf l).take n := by
  rw [kwOf, kwOf, List.map_take]

theorem kwOf_map_min (l : ZSet T) :
    kwOf keyOf (l.map (fun p => (p.1, min p.2 1)))
      = (kwOf keyOf l).map (fun q => (q.1, min q.2 1)) := by
  rw [kwOf, kwOf, List.map_map, List.map_map]
  rfl

theorem kw_eq_of_sorted (hc : CmpSpec keyOf cmp) :
    ∀ l1 l2 : List (T × Int),
      l1.Pairwise (fun p q => cmp p.1 q.1 ≤ 0) →
      l2.Pairwise (fun p q => cmp p.1 q.1 ≤ 0) →
      (l1.map (fun p => keyOf p.1)).Nodup →
      (l2.map (fun p => keyOf p.1)).Nodup →
      (∀ p ∈ l1, 0 < p.2) → (∀ p ∈ l2, 0 < p.2) →
      (∀ k, weightAt keyOf l1 k = weightAt keyOf l2 k) →
      kwOf keyOf l1 = kwOf keyOf l2 := by
  intro l1
  induction l1 with
  | nil =>
      intro l2 _ _ _ h2n _ h2p hw
      cases l2 with
      | nil => rfl
      | cons q t2 =>
          exfalso
          have h1 := weightAt_eq_of_mem_nodup keyOf h2n (List.mem_cons_self ..)
          have h2 := hw (keyOf q.1)
          rw [weightAt_nil] at h2
          have h3 := h2p q (List.mem_cons_self ..)
          omega
  | cons p t1 ih =>
      intro l2 h1s h2s h1n h2n h1p h2p hw
      cases l2 with
      | nil =>
          exfalso
          have h1 := weightAt_eq_of_mem_nodup keyOf h1n (List.mem_cons_self ..)
          have h2 := hw (keyOf p.1)
          rw [weightAt_nil] at h2
          have h3 := h1p p (List.mem_cons_self ..)
          omega
      | cons q t2 =>
          obtain ⟨hp1, ht1s⟩ := List.pairwise_cons.mp h1s
          obtain ⟨hq1, ht2s⟩ := List.pairwise_cons.mp h2s
          have hwp : weightAt keyOf (q :: t2) (keyOf p.1) = p.2 := by
            rw [← hw]
            exact weightAt_eq_of_mem_nodup keyOf h1n (List.mem_cons_self ..)
          have hppos := h1p p (List.mem_cons_self ..)
          obtain ⟨q', hq'mem, hq'key⟩ :=
            exists_mem_of_weightAt_ne_zero keyOf
              (show weightAt keyOf (q :: t2) (keyOf p.1) ≠ 0 by omega)
          have hqp : cmp q.1 p.1 ≤ 0 := by
            rcases List.mem_cons.mp hq'mem with he | ht
            · exact le_of_eq ((hc.tie_iff _ _).mpr (he ▸ hq'key))
            · exact hc.trans _ _ _ (hq1 q' ht) (le_of_eq ((hc.tie_iff _ _).mpr hq'key))
          have hwq : weightAt keyOf (p :: t1) (keyOf q.1) = q.2 := by
            rw [hw]
            exact weightAt_eq_of_mem_nodup keyOf h2n (List.mem_cons_self ..)
          have hqpos := h2p q (List.mem_cons_self ..)
          obtain ⟨p', hp'mem, hp'key⟩ :=
            exists_mem_of_weightAt_ne_zero keyOf
              (show weightAt keyOf (p :: t1) (keyOf q.1) ≠ 0 by omega)
          have hpq : cmp p.1 q.1 ≤ 0 := by
            rcases List.mem_cons.mp hp'mem with he | ht
            · exact le_of_eq ((hc.tie_iff _ _).mpr (he ▸ hp'key))
            · exact hc.trans _ _ _ (hp1 p' ht) (le_of_eq ((hc.tie_iff _ _).mpr hp'key))
          have hkeys : keyOf p.1 = keyOf q.1 := (hc.tie_iff _ _).mp (hc.antisymm _ _ hpq hqp)
          have hwts : p.2 = q.2 := by
            have h5 := weightAt_eq_of_mem_nodup keyOf h2n (List.mem_cons_self ..)
            rw [← hw (keyOf q.1), ← hkeys,
              weightAt_eq_of_mem_nodup keyOf h1n (List.mem_cons_self ..)] at h5
            exact h5
          have hwt : ∀ k, weightAt keyOf t1 k = weightAt keyOf t2 k := by
            intro k
            by_cases hk : keyOf p.1 = k
            · rw [← hk]
              have h1n2 := h1n
              have h2n2 := h2n
              rw [List.map_cons, List.nodup_cons] at h1n2 h2n2
              rw [weightAt_eq_zero_of_key_not_mem keyOf t1 _ h1n2.1,
                weightAt_eq_zero_of_key_not_mem keyOf t2 _ (hkeys.symm ▸ h2n2.1)]
            · have h6 := hw k
              rw [weightAt_cons, weightAt_cons, if_neg hk, if_neg (hkeys ▸ hk)] at h6
              omega
          have h1n' : (t1.map (fun p => keyOf p.1)).Nodup := by
            rw [List.map_cons, List.nodup_cons] at h1n
            exact h1n.2
          have h2n' : (t2.map (fun p => keyOf p.1)).Nodup := by
            rw [List.map_cons, List.nodup_cons] at h2n
            exact h2n.2
          have htl := ih t2 ht1s ht2s h1n' h2n'
            (fun z hz => h1p z (List.mem_cons_of_mem _ hz))
            (fun z hz => h2p z (List.mem_cons_of_mem _ hz)) hwt
          rw [kwOf, kwOf, List.map_cons, List.map_cons]
          rw [kwOf, kwOf] at htl
          rw [hkeys, hwts, htl]

end C2Support

section C2

variable {T K : Type} [DecidableEq K] (keyOf : T → K) (cmp : T → T → Int)

/-- C2 (amended): after any sequence of deltas processed by
`StatefulTopK.processIncrement` from fresh state, `getCurrentState().topK`
is semantically equal to `ZSetOperators.topK` (same comparator, limit,
offset) on the group sum of the deltas, PROVIDED (i) every delta is
canonical (already merged), (ii) no record's running cumulative weight ever
dips below zero, and (iii) the comparator is total, transitive,
sign-antisymmetric and ties exactly on records with equal serialization.
Each proviso is forced by a failure of the unrestricted claim: a negative
dip makes the state forget the residue (see the counterexample), duplicate
keys inside a single delta are never merged by the fold of `add`, and a tie
at the window boundary makes the two sides pick different records. -/
theorem C2_topk_incremental_amended (limit off : Nat) (ds : List (ZSet T))
    (hc : CmpSpec keyOf cmp) (hpre : PrefixNonneg keyOf ds.flatten)
    (hcanon : ∀ d ∈ ds, mergeRecords keyOf d = d) :
    zeq keyOf
      (currentTopK limit off (processDeltasTopK keyOf cmp limit off ds).sortedElements)
      (zsetTopK cmp limit off (integratedInput keyOf ds)) := by
  have hwfds : ∀ d ∈ ds, WF keyOf d := by
    intro d hd
    rw [← hcanon d hd]
    exact wf_mergeRecords keyOf d
  rw [sortedElements_processDeltas]
  obtain ⟨hndS, hposS, hwS⟩ := TInv_run keyOf cmp ds.flatten hpre
  have hsortS := sorted_run keyOf cmp hc ds.flatten
  obtain ⟨hndI, hnzI⟩ := wf_integratedInput keyOf ds hwfds
  have hwI : ∀ k, weightAt keyOf (integratedInput keyOf ds) k
      = weightAt keyOf ds.flatten k := fun k => weightAt_integratedInput keyOf ds k
  have hposI : ∀ p ∈ integratedInput keyOf ds, 0 < p.2 := by
    intro p hp
    have h1 := weightAt_eq_of_mem_nodup keyOf hndI hp
    have h2 := prefixNonneg_last keyOf hpre (keyOf p.1)
    have h3 := hwI (keyOf p.1)
    have h4 := hnzI p hp
    omega
  have hfil : (integratedInput keyOf ds).filter (fun p => decide (0 < p.2))
      = integratedInput keyOf ds :=
    List.filter_eq_self.mpr (fun p hp => decide_eq_true (hposI p hp))
  have hpermB := perm_sortByCmp cmp (integratedInput keyOf ds)
  have hndB := nodupKeys_perm keyOf hpermB.symm hndI
  have hposB : ∀ p ∈ sortByCmp cmp (integratedInput keyOf ds), 0 < p.2 :=
    fun p hp => hposI p (hpermB.mem_iff.mp hp)
  have hwB : ∀ k, weightAt keyOf (sortByCmp cmp (integratedInput keyOf ds)) k
      = weightAt keyOf ds.flatten k :=
    fun k => (weightAt_perm keyOf hpermB k).trans (hwI k)
  have hsortB := sorted_sortByCmp keyOf cmp hc (integratedInput keyOf ds)
  have hkw := kw_eq_of_sorted keyOf cmp hc
    (ds.flatten.foldl (processEntry keyOf cmp) [])
    (sortByCmp cmp (integratedInput keyOf ds))
    hsortS hsortB hndS hndB hposS hposB
    (fun k => (hwS k).trans (hwB k).symm)
  intro k
  simp only [currentTopK, zsetTopK]
  rw [hfil]
  have hposSlice : ∀ p ∈ ((ds.flatten.foldl (processEntry keyOf cmp) []).drop off).take
      limit, 0 < p.2 :=
    fun p hp => hposS p (List.drop_subset off _ (List.take_subset limit _ hp))
  rw [List.filter_eq_self.mpr (fun p hp => decide_eq_true (hposSlice p hp))]
  apply weightAt_eq_of_kwOf_eq
  rw [kwOf_map_min, kwOf_map_min, kwOf_take, kwOf_take, kwOf_drop, kwOf_drop, hkw]

end C2

section C2Concrete

/-- The ascending numeric comparator satisfies the comparator contract with
identity serialization. -/
theorem cmpSpecNat : CmpSpec idNat cmpNat := by
  constructor
  · intro x y; simp only [cmpNat]; omega
  · intro x y z; simp only [cmpNat]; omega
  · intro x y; simp only [cmpNat]; omega
  · intro x y; simp only [cmpNat, idNat]; omega

/-- C2 counterexample: a cumulative weight dipping to −1 (deltas {a↦2},
{a↦−3}, {a↦1}, a valid ascending comparator).  The stateful operator
forgets the −1 residue on removal and re-inserts the record with weight 1,
so its top-K contains the record while the batch `topK` of the integrated
input is empty: the claim as stated is false on the code. -/
theorem C2_counterexample :
    ¬ zeq idNat
      (currentTopK 10 0
        (processDeltasTopK idNat cmpNat 10 0 [[(1, 2)], [(1, -3)], [(1, 1)]]).sortedElements)
      (zsetTopK cmpNat 10 0 (integratedInput idNat [[(1, 2)], [(1, -3)], [(1, 1)]])) :=
  fun h => absurd (h 1) (by decide)

/-- Witness instantiating `C2_topk_incremental_amended` at a concrete run
(limit 2, deltas {3↦1, 1↦1} then {2↦1}). -/
theorem C2_witness :
    zeq idNat
      (currentTopK 2 0
        (processDeltasTopK idNat cmpNat 2 0 [[(3, 1), (1, 1)], [(2, 1)]]).sortedElements)
      (zsetTopK cmpNat 2 0 (integratedInput idNat [[(3, 1), (1, 1)], [(2, 1)]])) :=
  C2_topk_incremental_amended idNat cmpNat 2 0 [[(3, 1), (1, 1)], [(2, 1)]] cmpSpecNat
    (prefixNonneg_of_forall idNat _ (by decide)) (by decide)

end C2Concrete

section C6

variable {T K : Type} [DecidableEq K] (keyOf : T → K) (cmp : T → T → Int)

/-- C6 (amended): for every CANONICAL Z-set z (already merged),
`ZSetOperators.topK(z, cmp, k, offset)` equals the spec pipeline
(canonicalize; drop non-positive; stable sort; slice `[offset, offset+k)`;
weight `min(w, 1)`).  The implementation never canonicalizes, so on a
non-canonical builder Z-set with duplicate keys the two differ (see the
counterexample); on canonical input the canonicalization step of the spec
pipeline is the identity and the remaining steps coincide. -/
theorem C6_topk_pipeline_amended (k off : Nat) (z : ZSet T)
    (hz : mergeRecords keyOf z = z) :
    zsetTopK cmp k off z = specTopK keyOf cmp k off z := by
  rw [specTopK, hz, zsetTopK]

/-- C6 counterexample: the builder Z-set [(a,1), (a,−1)] (duplicate key,
cancelling weights).  `topK` keeps the raw positive entry and returns
{a↦1}; the spec pipeline canonicalizes to the empty Z-set first and returns
∅.  The claim as stated (covering non-canonical builder input) is false on
the code. -/
theorem C6_counterexample :
    ¬ zeq idNat (zsetTopK cmpNat 1 0 [(1, 1), (1, -1)])
      (specTopK idNat cmpNat 1 0 [(1, 1), (1, -1)]) :=
  fun h => absurd (h 1) (by decide)

/-- Witness instantiating `C6_topk_pipeline_amended` on a canonical input. -/
theorem C6_witness :
    zsetTopK cmpNat 1 0 [(2, 1), (1, 1)] = specTopK idNat cmpNat 1 0 [(2, 1), (1, 1)] :=
  C6_topk_pipeline_amended idNat cmpNat 1 0 [(2, 1), (1, 1)] (by decide)

end C6

section C10

variable {T K : Type} [DecidableEq K] (keyOf : T → K)

/-- C10: record identity throughout canonicalization is the JSON
serialization of the record: whenever two entries (r1, w1), (r2, w2) —
possibly distinct objects — have the same serialization, `mergeRecords`
produces the single entry (r1, w1 + w2) keeping the first-encountered
representative r1, and drops it when the summed weight is 0. -/
theorem C10_mergeRecords_serialization (r1 r2 : T) (w1 w2 : Int)
    (h : keyOf r1 = keyOf r2) :
    mergeRecords keyOf [(r1, w1), (r2, w2)] =
      if w1 + w2 = 0 then [] else [(r1, w1 + w2)] := by
  have hfk : firstKeys keyOf [(r1, w1), (r2, w2)] = [keyOf r1] := by
    simp [firstKeys, h]
  have hw : weightAt keyOf [(r1, w1), (r2, w2)] (keyOf r1) = w1 + w2 := by
    simp [weightAt, h.symm]
  rw [mergeRecords, hfk]
  by_cases hw0 : w1 + w2 = 0
  · simp [List.find?, hw, hw0]
  · simp [List.find?, hw, hw0]

/-- Witness instantiating `C10_mergeRecords_serialization` on two distinct
records (1,10) and (1,20) whose serialization (first component) agrees. -/
theorem C10_witness :
    mergeRecords (fun p : Nat × Nat => p.1)
        [(((1 : Nat), (10 : Nat)), (2 : Int)), ((1, 20), 3)]
      = if (2 : Int) + 3 = 0 then [] else [((1, 10), (2 : Int) + 3)] :=
  C10_mergeRecords_serialization (fun p : Nat × Nat => p.1) (1, 10) (1, 20) 2 3 rfl

end C10

section StreamLemmas

variable {A B : Type}

theorem find?_pairs (ts : List Nat) (f : Nat → A) (x : Nat) :
    (ts.map (fun t => (t, f t))).find? (fun p => decide (p.1 = x))
      = if x ∈ ts then some (x, f x) else none := by
  induction ts with
  | nil => simp
  | cons t ts' ih =>
      rw [List.map_cons]
      by_cases hx : t = x
      · subst hx
        rw [List.find?_cons_of_pos _ (by simp)]
        simp
      · rw [List.find?_cons_of_neg _ (by simpa using hx), ih]
        by_cases hmem : x ∈ ts'
        · rw [if_pos hmem, if_pos (List.mem_cons_of_mem _ hmem)]
        · rw [if_neg hmem, if_neg ?hnc]
          case hnc =>
            intro hc
            rcases List.mem_cons.mp hc with hc | hc
            · exact hx hc.symm
            · exact hmem hc

theorem atTime_pairs (ts : List Nat) (f : Nat → A) (d : A) (x : Nat) :
    (DStream.mk (ts.map (fun t => (t, f t))) d).atTime x
      = if x ∈ ts then f x else d := by
  rw [DStream.atTime]
  simp only [find?_pairs]
  by_cases hx : x ∈ ts
  · rw [if_pos hx, if_pos hx]
  · rw [if_neg hx, if_neg hx]

theorem find?_map_fst (l : List (Nat × A)) (g : Nat × A → B) (x : Nat) :
    (l.map (fun p => (p.1, g p))).find? (fun q => decide (q.1 = x))
      = (l.find? (fun p => decide (p.1 = x))).map (fun p => (p.1, g p)) := by
  induction l with
  | nil => simp
  | cons p rest ih =>
      rw [List.map_cons]
      by_cases hx : p.1 = x
      · rw [List.find?_cons_of_pos _ (by simpa using hx),
          List.find?_cons_of_pos _ (by simpa using hx)]
        rfl
      · rw [List.find?_cons_of_neg _ (by simpa using hx),
          List.find?_cons_of_neg _ (by simpa using hx), ih]

theorem atTime_differentiate (G : AbelianGroupOps A) (s : DStream A) (t : Nat) :
    (differentiate G s).atTime t =
      match s.entries.find? (fun p => decide (p.1 = t)) with
      | some _ => G.subtract (s.atTime t)
          (if 0 < t then s.atTime (t - 1) else G.zero)
      | none => G.zero := by
  conv_lhs => rw [differentiate, DStream.atTime]
  simp only [find?_map_fst]
  rcases hf : s.entries.find? (fun p => decide (p.1 = t)) with _ | p
  · rw [hf]
    rfl
  · rw [hf]
    have hpt : p.1 = t := by simpa using List.find?_some hf
    have hsv : s.atTime t = p.2 := by
      rw [DStream.atTime, hf]
    rw [Option.map_some']
    simp only [hsv, hpt]

theorem le_maxTimeN {l : List Nat} {x : Nat} (h : x ∈ l) : x ≤ maxTimeN l := by
  induction l with
  | nil => cases h
  | cons y rest ih =>
      rw [maxTimeN, List.foldr_cons]
      rcases List.mem_cons.mp h with he | hm
      · subst he; exact Nat.le_max_left _ _
      · exact Nat.le_trans (ih hm) (Nat.le_max_right _ _)

theorem sub_add_cancel_ops {G : AbelianGroupOps A} (hG : IsAbelianGroup G) (x y : A) :
    G.subtract (G.add y x) y = x := by
  rw [hG.sub_def, hG.add_comm y x, hG.add_assoc, hG.add_neg, hG.add_comm x G.zero,
    hG.zero_add]

end StreamLemmas

section C3

variable {A : Type}

/-- C3: for every stream over an abelian group that is zero
almost-everywhere (streams in the model have finitely many set entries, and
the stream's constructor default is the group zero), the round trip
`differentiate(group)(integrate(group)(s))` reads the same value as `s` at
every time, unset times reading as the group zero. -/
theorem C3_integrate_differentiate_roundtrip (G : AbelianGroupOps A)
    (hG : IsAbelianGroup G) (s : DStream A) (hd : s.dflt = G.zero) (t : Nat) :
    (differentiate G (integrate G s)).atTime t = s.atTime t := by
  by_cases hse : s.entries.isEmpty
  · have he : s.entries = [] := List.isEmpty_iff.mp hse
    rw [integrate, if_pos hse, atTime_differentiate]
    show G.zero = s.atTime t
    rw [DStream.atTime, he]
    exact hd.symm
  · rw [integrate, if_neg hse]
    set n := maxTimeN (s.entries.map (fun p => p.1)) with hn
    rw [atTime_differentiate]
    simp only [find?_pairs]
    by_cases ht : t ∈ List.range (n + 1)
    · rw [if_pos ht]
      have hat : (DStream.mk ((List.range (n + 1)).map
          (fun t => (t, integAcc G s t))) G.zero).atTime t = integAcc G s t := by
        rw [atTime_pairs, if_pos ht]
      show G.subtract ((DStream.mk ((List.range (n + 1)).map
          (fun t => (t, integAcc G s t))) G.zero).atTime t)
          (if 0 < t then (DStream.mk ((List.range (n + 1)).map
            (fun t => (t, integAcc G s t))) G.zero).atTime (t - 1) else G.zero)
        = s.atTime t
      cases t with
      | zero =>
          rw [hat, if_neg (lt_irrefl 0)]
          show G.subtract (G.add G.zero (s.atTime 0)) G.zero = s.atTime 0
          exact sub_add_cancel_ops hG (s.atTime 0) G.zero
      | succ t' =>
          have htn : t' + 1 < n + 1 := List.mem_range.mp ht
          have ht' : t' ∈ List.range (n + 1) := List.mem_range.mpr (by omega)
          have hat' : (DStream.mk ((List.range (n + 1)).map
              (fun t => (t, integAcc G s t))) G.zero).atTime t' = integAcc G s t' := by
            rw [atTime_pairs, if_pos ht']
          have hidx : t' + 1 - 1 = t' := rfl
          rw [hat, if_pos (Nat.succ_pos t'), hidx, hat']
          show G.subtract (G.add (integAcc G s t') (s.atTime (t' + 1)))
              (integAcc G s t') = s.atTime (t' + 1)
          exact sub_add_cancel_ops hG (s.atTime (t' + 1)) (integAcc G s t')
    · rw [if_neg ht]
      have htn : n < t := by
        have h2 := List.mem_range.not.mp ht
        omega
      have hnone : s.entries.find? (fun p => decide (p.1 = t)) = none := by
        rw [List.find?_eq_none]
        intro p hp hpt
        have hpt2 : p.1 = t := of_decide_eq_true hpt
        have hmm : p.1 ∈ s.entries.map (fun p => p.1) :=
          List.mem_map.mpr ⟨p, hp, rfl⟩
        have h3 := le_maxTimeN hmm
        rw [hpt2, ← hn] at h3
        omega
      show G.zero = s.atTime t
      rw [DStream.atTime, hnone]
      exact hd.symm

end C3

section C3Concrete

/-- The integer group satisfies the abelian-group laws. -/
theorem intGroupLaws : IsAbelianGroup intGroup := by
  constructor
  · intro a b; simp [intGroup]; ring
  · intro a b c; simp [intGroup]; ring
  · intro a; simp [intGroup]
  · intro a; simp [intGroup]
  · intro a b; simp [intGroup]; ring

/-- Witness instantiating `C3_integrate_differentiate_roundtrip` on a
concrete sparse integer stream. -/
theorem C3_witness :
    (differentiate intGroup (integrate intGroup
        (DStream.mk [(0, (2 : Int)), (3, 5)] 0))).atTime 3
      = (DStream.mk [(0, (2 : Int)), (3, 5)] 0).atTime 3 :=
  C3_integrate_differentiate_roundtrip intGroup intGroupLaws
    (DStream.mk [(0, (2 : Int)), (3, 5)] 0) rfl 3

end C3Concrete

section C7C8

/-- C7 evaluated at the failing input: `lift` sets the output stream's
default to `f(input.at(0))`, not `f(zero)`.  With `f = (·+1)` over integer
streams (group zero 0) and `s[0] = 5`, reading the unset time 3 yields
`f(5) = 6`, while the claim (and the source comment "Default from
f(default)") requires `f(0) = 1`. -/
theorem C7_lift_default_code_bug :
    (liftOp (fun v : Int => v + 1) (DStream.mk [(0, (5 : Int))] 0)).atTime 3 = 6
      ∧ (liftOp (fun v : Int => v + 1) (DStream.mk [(0, (5 : Int))] 0)).atTime 0 = 6
      ∧ ((6 : Int) ≠ 0 + 1) := by
  refine ⟨rfl, rfl, by decide⟩

/-- C8 evaluated: `delay` with default value {default↦1} on the stream with
only `s[0] = {joe↦1, anne↦−1}` reads {default↦1} at 0 and s[0] at 1 as the
claim says, but at the unset time 2 it reads the stream default
{default↦1}, not the empty Z-set the claim (and the repository's own delay
test, which expects ∅ at unset times) requires. -/
theorem C8_delay_sparse_code_bug :
    (delayOp ([("default", 1)] : ZSet String)
        (DStream.mk [(0, ([("joe", 1), ("anne", -1)] : ZSet String))] [])).atTime 0
        = [("default", 1)]
      ∧ (delayOp ([("default", 1)] : ZSet String)
          (DStream.mk [(0, ([("joe", 1), ("anne", -1)] : ZSet String))] [])).atTime 1
          = [("joe", 1), ("anne", -1)]
      ∧ (delayOp ([("default", 1)] : ZSet String)
          (DStream.mk [(0, ([("joe", 1), ("anne", -1)] : ZSet String))] [])).atTime 2
          = [("default", 1)]
      ∧ weightAt idStr
          ((delayOp ([("default", 1)] : ZSet String)
            (DStream.mk [(0, ([("joe", 1), ("anne", -1)] : ZSet String))] [])).atTime 2)
          "default" ≠ 0 := by
  refine ⟨rfl, rfl, rfl, by decide⟩

end C7C8

section C9Lemmas

variable {A B C : Type} (op : A → B → C) (GA : AbelianGroupOps A)
  (GB : AbelianGroupOps B) (GC : AbelianGroupOps C) (eA : A → Bool) (eB : B → Bool)

theorem bilinStep_lastTime_mono (acc : DStream C × BilinState A B)
    (e : Nat × (A × B)) :
    acc.2.lastTime ≤ (bilinStep op GA GB GC eA eB acc e).2.lastTime := by
  obtain ⟨out, st⟩ := acc
  simp only [bilinStep]
  by_cases h : (e.1 : Int) ≤ st.lastTime
  · rw [if_pos h]
  · rw [if_neg h]
    simp only []
    omega

theorem bilinStep_self_le (acc : DStream C × BilinState A B) (e : Nat × (A × B)) :
    (e.1 : Int) ≤ (bilinStep op GA GB GC eA eB acc e).2.lastTime := by
  obtain ⟨out, st⟩ := acc
  simp only [bilinStep]
  by_cases h : (e.1 : Int) ≤ st.lastTime
  · rw [if_pos h]
    exact h
  · rw [if_neg h]

theorem bilinStep_skip (acc : DStream C × BilinState A B) (e : Nat × (A × B))
    (h : (e.1 : Int) ≤ acc.2.lastTime) :
    bilinStep op GA GB GC eA eB acc e = acc := by
  obtain ⟨out, st⟩ := acc
  simp only [bilinStep]
  rw [if_pos h]

theorem lastTime_foldl_mono (es : List (Nat × (A × B)))
    (acc : DStream C × BilinState A B) :
    acc.2.lastTime ≤ (es.foldl (bilinStep op GA GB GC eA eB) acc).2.lastTime := by
  induction es generalizing acc with
  | nil => exact le_refl _
  | cons f es' ih =>
      rw [List.foldl_cons]
      exact le_trans (bilinStep_lastTime_mono op GA GB GC eA eB acc f) (ih _)

theorem mem_le_lastTime_foldl (es : List (Nat × (A × B)))
    (acc : DStream C × BilinState A B) (e : Nat × (A × B)) (he : e ∈ es) :
    (e.1 : Int) ≤ (es.foldl (bilinStep op GA GB GC eA eB) acc).2.lastTime := by
  induction es generalizing acc with
  | nil => cases he
  | cons f es' ih =>
      rw [List.foldl_cons]
      rcases List.mem_cons.mp he with he | he
      · subst he
        exact le_trans (bilinStep_self_le op GA GB GC eA eB acc e)
          (lastTime_foldl_mono op GA GB GC eA eB es' _)
      · exact ih _ he

theorem foldl_skip_all (es : List (Nat × (A × B)))
    (acc : DStream C × BilinState A B)
    (h : ∀ e ∈ es, (e.1 : Int) ≤ acc.2.lastTime) :
    es.foldl (bilinStep op GA GB GC eA eB) acc = acc := by
  induction es with
  | nil => rfl
  | cons f es' ih =>
      rw [List.foldl_cons, bilinStep_skip op GA GB GC eA eB acc f
        (h f (List.mem_cons_self ..))]
      exact ih (fun e he => h e (List.mem_cons_of_mem _ he))

end C9Lemmas

section C9

/-- C9: a circuit built on `optimizeBilinear` (`Circuit.equiJoin` among
them) keeps `cumulativeA`, `cumulativeB` and `lastProcessedTime` in closure
state shared across executions, so `execute` is not a function of its input
alone.  Generally: re-running any bilinear circuit on the very same input
stream from the state left by the first run yields a stream with no set
entries (every time is ≤ `lastProcessedTime` and is skipped), every `at(t)`
reading the zero Z-set; and concretely the equi-join circuit returns
different outputs for the two calls on the same input. -/
theorem C9_bilinear_closure_state :
    (∀ (A B C : Type) (op : A → B → C) (GA : AbelianGroupOps A)
        (GB : AbelianGroupOps B) (GC : AbelianGroupOps C)
        (eA : A → Bool) (eB : B → Bool)
        (st0 : BilinState A B) (input : DStream (A × B)),
      (runBilinear op GA GB GC eA eB
          (runBilinear op GA GB GC eA eB st0 input).2 input).1.entries = []
        ∧ ∀ t : Nat, (runBilinear op GA GB GC eA eB
            (runBilinear op GA GB GC eA eB st0 input).2 input).1.atTime t = GC.zero)
    ∧ (equiJoinCircuit (initBilin zsetNatGroup zsetNatGroup) circuitInput).1.atTime 0
        ≠ (equiJoinCircuit
            (equiJoinCircuit (initBilin zsetNatGroup zsetNatGroup) circuitInput).2
            circuitInput).1.atTime 0 := by
  constructor
  · intro A B C op GA GB GC eA eB st0 input
    have hall : ∀ e ∈ input.entries, (e.1 : Int) ≤
        ((runBilinear op GA GB GC eA eB st0 input).2).lastTime := by
      intro e he
      rw [runBilinear]
      exact mem_le_lastTime_foldl op GA GB GC eA eB input.entries _ e he
    have hskip : runBilinear op GA GB GC eA eB
        (runBilinear op GA GB GC eA eB st0 input).2 input
        = (⟨[], GC.zero⟩, (runBilinear op GA GB GC eA eB st0 input).2) := by
      rw [runBilinear]
      exact foldl_skip_all op GA GB GC eA eB input.entries _ hall
    rw [hskip]
    exact ⟨rfl, fun t => rfl⟩
  · decide

end C9

section SumLemmas

variable {α β : Type}

theorem sum_map_add (l : List α) (g h : α → Int) :
    (l.map (fun y => g y + h y)).sum = (l.map g).sum + (l.map h).sum := by
  induction l with
  | nil => simp
  | cons x xs ih => simp only [List.map_cons, List.sum_cons, ih]; ring

theorem sum_map_zero (l : List α) : (l.map (fun _ => (0 : Int))).sum = 0 := by
  apply List.sum_eq_zero
  intro x hx
  obtain ⟨y, _, he⟩ := List.mem_map.mp hx
  exact he.symm

theorem sum_map_comm (l1 : List α) (l2 : List β) (f : α → β → Int) :
    (l1.map (fun x => (l2.map (fun y => f x y)).sum)).sum
      = (l2.map (fun y => (l1.map (fun x => f x y)).sum)).sum := by
  induction l1 with
  | nil => simp [sum_map_zero]
  | cons x xs ih =>
      simp only [List.map_cons, List.sum_cons, ih]
      rw [← sum_map_add]

end SumLemmas

section JoinWeightLemmas

variable {T U KT KU KJ : Type} [DecidableEq KT] [DecidableEq KU] [DecidableEq KJ]
  (kA : T → KJ) (kB : U → KJ) (keyT : T → KT) (keyU : U → KU)

theorem weightAt_joinInner (pa : T × Int) (b : ZSet U) (kp : KT × KU) :
    weightAt (pairKey keyT keyU)
      ((b.filter (fun pb => decide (kB pb.1 = kA pa.1))).filterMap (fun pb =>
        if pa.2 * pb.2 = 0 then none else some ((pa.1, pb.1), pa.2 * pb.2))) kp
      = (b.map (fun pb => jcontrib kA kB keyT keyU kp pa pb)).sum := by
  induction b with
  | nil => rfl
  | cons pb rest ih =>
      rw [List.map_cons, List.sum_cons]
      by_cases hm : kB pb.1 = kA pa.1
      · rw [List.filter_cons, if_pos (decide_eq_true hm)]
        by_cases hz : pa.2 * pb.2 = 0
        · rw [List.filterMap_cons_none (by rw [if_pos hz]), ih]
          have hcz : jcontrib kA kB keyT keyU kp pa pb = 0 := by
            rw [jcontrib]
            by_cases hk : kB pb.1 = kA pa.1 ∧ (keyT pa.1, keyU pb.1) = kp
            · rw [if_pos hk, hz]
            · rw [if_neg hk]
          rw [hcz]
          ring
        · rw [List.filterMap_cons_some (by rw [if_neg hz]), weightAt_cons, ih]
          have hcc : (if pairKey keyT keyU ((pa.1, pb.1) : T × U) = kp
              then pa.2 * pb.2 else 0) = jcontrib kA kB keyT keyU kp pa pb := by
            rw [jcontrib]
            simp only [pairKey]
            by_cases hk : (keyT pa.1, keyU pb.1) = kp
            · rw [if_pos hk, if_pos ⟨hm, hk⟩]
            · rw [if_neg hk, if_neg (fun hc => hk hc.2)]
          rw [hcc]
      · rw [List.filter_cons, if_neg (by simpa using hm), ih]
        have hcz : jcontrib kA kB keyT keyU kp pa pb = 0 := by
          rw [jcontrib, if_neg (fun hc => hm hc.1)]
        rw [hcz]
        ring

theorem weightAt_equiJoinRaw (a : ZSet T) (b : ZSet U) (kp : KT × KU) :
    weightAt (pairKey keyT keyU) (equiJoinRaw kA kB a b) kp
      = jweight kA kB keyT keyU a b kp := by
  induction a with
  | nil => rfl
  | cons pa a' ih =>
      have hL : equiJoinRaw kA kB (pa :: a') b
          = ((b.filter (fun pb => decide (kB pb.1 = kA pa.1))).filterMap (fun pb =>
              if pa.2 * pb.2 = 0 then none else some ((pa.1, pb.1), pa.2 * pb.2)))
            ++ equiJoinRaw kA kB a' b := by
        simp only [equiJoinRaw, List.flatMap_cons]
      rw [hL, weightAt_append, weightAt_joinInner, ih]
      rw [jweight, jweight, List.map_cons, List.sum_cons]

theorem weightAt_joinInnerFlip (pb : U × Int) (a : ZSet T) (kp : KT × KU) :
    weightAt (pairKey keyT keyU)
      ((a.filter (fun pa => decide (kA pa.1 = kB pb.1))).filterMap (fun pa =>
        if pa.2 * pb.2 = 0 then none else some ((pa.1, pb.1), pa.2 * pb.2))) kp
      = (a.map (fun pa => jcontrib kA kB keyT keyU kp pa pb)).sum := by
  induction a with
  | nil => rfl
  | cons pa rest ih =>
      rw [List.map_cons, List.sum_cons]
      by_cases hm : kA pa.1 = kB pb.1
      · rw [List.filter_cons, if_pos (decide_eq_true hm)]
        by_cases hz : pa.2 * pb.2 = 0
        · rw [List.filterMap_cons_none (by rw [if_pos hz]), ih]
          have hcz : jcontrib kA kB keyT keyU kp pa pb = 0 := by
            rw [jcontrib]
            by_cases hk : kB pb.1 = kA pa.1 ∧ (keyT pa.1, keyU pb.1) = kp
            · rw [if_pos hk, hz]
            · rw [if_neg hk]
          rw [hcz]
          ring
        · rw [List.filterMap_cons_some (by rw [if_neg hz]), weightAt_cons, ih]
          have hcc : (if pairKey keyT keyU ((pa.1, pb.1) : T × U) = kp
              then pa.2 * pb.2 else 0) = jcontrib kA kB keyT keyU kp pa pb := by
            rw [jcontrib]
            simp only [pairKey]
            by_cases hk : (keyT pa.1, keyU pb.1) = kp
            · rw [if_pos hk, if_pos ⟨hm.symm, hk⟩]
            · rw [if_neg hk, if_neg (fun hc => hk hc.2)]
          rw [hcc]
      · rw [List.filter_cons, if_neg (by simpa using hm), ih]
        have hcz : jcontrib kA kB keyT keyU kp pa pb = 0 := by
          rw [jcontrib, if_neg (fun hc => hm hc.1.symm)]
        rw [hcz]
        ring

theorem weightAt_equiJoinRawFlip (a : ZSet T) (b : ZSet U) (kp : KT × KU) :
    weightAt (pairKey keyT keyU) (equiJoinRawFlip kA kB a b) kp
      = jweight kA kB keyT keyU a b kp := by
  have h1 : weightAt (pairKey keyT keyU) (equiJoinRawFlip kA kB a b) kp
      = (b.map (fun pb => (a.map (fun pa =>
          jcontrib kA kB keyT keyU kp pa pb)).sum)).sum := by
    induction b with
    | nil => rfl
    | cons pb b' ih =>
        have hL : equiJoinRawFlip kA kB a (pb :: b')
            = ((a.filter (fun pa => decide (kA pa.1 = kB pb.1))).filterMap (fun pa =>
                if pa.2 * pb.2 = 0 then none else some ((pa.1, pb.1), pa.2 * pb.2)))
              ++ equiJoinRawFlip kA kB a b' := by
          simp only [equiJoinRawFlip, List.flatMap_cons]
        rw [hL, weightAt_append, weightAt_joinInnerFlip, ih]
        rw [List.map_cons, List.sum_cons]
  rw [h1, jweight, sum_map_comm]

theorem jweight_append_left (a1 a2 : ZSet T) (b : ZSet U) (kp : KT × KU) :
    jweight kA kB keyT keyU (a1 ++ a2) b kp
      = jweight kA kB keyT keyU a1 b kp + jweight kA kB keyT keyU a2 b kp := by
  rw [jweight, jweight, jweight, List.map_append, List.sum_append]

theorem jweight_append_right (a : ZSet T) (b1 b2 : ZSet U) (kp : KT × KU) :
    jweight kA kB keyT keyU a (b1 ++ b2) kp
      = jweight kA kB keyT keyU a b1 kp + jweight kA kB keyT keyU a b2 kp := by
  rw [jweight, jweight, jweight, ← sum_map_add]
  congr 1
  apply List.map_congr_left
  intro pa _
  rw [List.map_append, List.sum_append]

theorem jweight_nil_left (b : ZSet U) (kp : KT × KU) :
    jweight kA kB keyT keyU ([] : ZSet T) b kp = 0 := rfl

theorem jweight_nil_right (a : ZSet T) (kp : KT × KU) :
    jweight kA kB keyT keyU a ([] : ZSet U) kp = 0 := by
  rw [jweight]
  apply List.sum_eq_zero
  intro x hx
  obtain ⟨pa, _, he⟩ := List.mem_map.mp hx
  simpa using he.symm

end JoinWeightLemmas

section MVLemmas

variable {T U KT KU KJ : Type} [DecidableEq KT] [DecidableEq KU] [DecidableEq KJ]
  (kA : T → KJ) (kB : U → KJ) (keyT : T → KT) (keyU : U → KU)

theorem weightAt_eraseP_nodup (mv : List ((T × U) × Int)) (k0 : KT × KU)
    (hnd : MVInv keyT keyU mv) (kp : KT × KU) :
    weightAt (pairKey keyT keyU)
      (mv.eraseP (fun q2 => decide (pairKey keyT keyU q2.1 = k0))) kp
      = if kp = k0 then 0 else weightAt (pairKey keyT keyU) mv kp := by
  induction mv with
  | nil =>
      by_cases hk : kp = k0
      · rw [if_pos hk]; rfl
      · rw [if_neg hk]; rfl
  | cons q rest ih =>
      rw [MVInv, List.map_cons, List.nodup_cons] at hnd
      by_cases h : pairKey keyT keyU q.1 = k0
      · rw [List.eraseP_cons]
        simp only [decide_eq_true h, cond_true]
        by_cases hk : kp = k0
        · rw [if_pos hk, hk, ← h]
          exact weightAt_eq_zero_of_key_not_mem (pairKey keyT keyU) rest _ hnd.1
        · rw [if_neg hk, weightAt_cons,
            if_neg (fun hc : pairKey keyT keyU q.1 = kp => hk (hc ▸ h))]
          ring
      · rw [List.eraseP_cons]
        simp only [decide_eq_false h, cond_false]
        rw [weightAt_cons, ih hnd.2]
        by_cases hk : kp = k0
        · rw [if_pos hk, if_pos hk,
            if_neg (fun hc : pairKey keyT keyU q.1 = kp => h (hk ▸ hc))]
          ring
        · rw [if_neg hk, if_neg hk, weightAt_cons]

theorem keys_eraseP_nodup (mv : List ((T × U) × Int)) (p : (T × U) × Int → Bool)
    (hnd : MVInv keyT keyU mv) : MVInv keyT keyU (mv.eraseP p) := by
  rw [MVInv] at hnd ⊢
  have hs : (mv.eraseP p).Sublist mv := List.eraseP_sublist mv
  exact (hs.map (fun q => pairKey keyT keyU q.1)).nodup hnd

theorem keys_setWeightFirst_eq (k0 : KT × KU) (w : Int)
    (mv : List ((T × U) × Int)) :
    (setWeightFirst keyT keyU k0 w mv).map (fun q => pairKey keyT keyU q.1)
      = mv.map (fun q => pairKey keyT keyU q.1) := by
  induction mv with
  | nil => rfl
  | cons q rest ih =>
      rw [setWeightFirst]
      by_cases h : pairKey keyT keyU q.1 = k0
      · rw [if_pos h, List.map_cons, List.map_cons]
      · rw [if_neg h, List.map_cons, List.map_cons, ih]

theorem weightAt_setWeightFirst (k0 : KT × KU) (w : Int)
    (mv : List ((T × U) × Int)) (hnd : MVInv keyT keyU mv)
    (hmem : k0 ∈ mv.map (fun q => pairKey keyT keyU q.1)) (kp : KT × KU) :
    weightAt (pairKey keyT keyU) (setWeightFirst keyT keyU k0 w mv) kp
      = if kp = k0 then w else weightAt (pairKey keyT keyU) mv kp := by
  induction mv with
  | nil => cases hmem
  | cons q rest ih =>
      rw [MVInv, List.map_cons, List.nodup_cons] at hnd
      rw [setWeightFirst]
      by_cases h : pairKey keyT keyU q.1 = k0
      · rw [if_pos h, weightAt_cons]
        by_cases hk : kp = k0
        · rw [if_pos hk, if_pos (hk ▸ h), hk, ← h,
            weightAt_eq_zero_of_key_not_mem (pairKey keyT keyU) rest _ hnd.1]
          ring
        · rw [if_neg hk, weightAt_cons,
            if_neg (fun hc : pairKey keyT keyU q.1 = kp => hk (hc ▸ h)),
            if_neg (fun hc : pairKey keyT keyU q.1 = kp => hk (hc ▸ h))]
      · have hmem2 : k0 ∈ rest.map (fun q => pairKey keyT keyU q.1) := by
          rcases List.mem_cons.mp hmem with hc | hc
          · exact absurd hc.symm h
          · exact hc
        rw [if_neg h, weightAt_cons, weightAt_cons, ih hnd.2 hmem2]
        by_cases hk : kp = k0
        · rw [if_pos hk, if_pos hk,
            if_neg (fun hc : pairKey keyT keyU q.1 = kp => h (hk ▸ hc))]
          ring
        · rw [if_neg hk, if_neg hk]

theorem mvApply_spec (mv : List ((T × U) × Int)) (e : (T × U) × Int)
    (hnd : MVInv keyT keyU mv) :
    MVInv keyT keyU (mvApply keyT keyU mv e) ∧
    ∀ kp : KT × KU, weightAt (pairKey keyT keyU) (mvApply keyT keyU mv e) kp
      = weightAt (pairKey keyT keyU) mv kp
        + (if pairKey keyT keyU e.1 = kp then e.2 else 0) := by
  rcases hfind : mv.find? (fun q =>
      decide (pairKey keyT keyU q.1 = pairKey keyT keyU e.1)) with _ | q
  · have hA : mvApply keyT keyU mv e = (if e.2 = 0 then mv else mv ++ [e]) := by
      unfold mvApply
      rw [hfind]
    have hne : pairKey keyT keyU e.1 ∉ mv.map (fun q => pairKey keyT keyU q.1) := by
      intro hc
      obtain ⟨q2, hq2, he2⟩ := List.mem_map.mp hc
      have := List.find?_eq_none.mp hfind q2 hq2
      simp [he2] at this
    rw [hA]
    by_cases hz : e.2 = 0
    · rw [if_pos hz]
      refine ⟨hnd, fun kp => ?_⟩
      rw [hz]
      by_cases hk : pairKey keyT keyU e.1 = kp
      · rw [if_pos hk]; ring
      · rw [if_neg hk]; ring
    · rw [if_neg hz]
      constructor
      · rw [MVInv, List.map_append]
        rw [List.nodup_append]
        refine ⟨hnd, by simp, ?_⟩
        intro k hka hkb
        simp only [List.map_cons, List.map_nil, List.mem_cons,
          List.not_mem_nil] at hkb
        rcases hkb with hkb | hkb
        · subst hkb; exact hne hka
        · cases hkb
      · intro kp
        rw [weightAt_append_singleton]
  · have hq : pairKey keyT keyU q.1 = pairKey keyT keyU e.1 := by
      simpa using List.find?_some hfind
    have hqmem : q ∈ mv := List.mem_of_find?_eq_some hfind
    have hqw : weightAt (pairKey keyT keyU) mv (pairKey keyT keyU e.1) = q.2 := by
      rw [← hq]
      exact weightAt_eq_of_mem_nodup (pairKey keyT keyU) hnd hqmem
    have hA : mvApply keyT keyU mv e
        = (if q.2 + e.2 = 0 then
            mv.eraseP (fun q2 =>
              decide (pairKey keyT keyU q2.1 = pairKey keyT keyU e.1))
          else setWeightFirst keyT keyU (pairKey keyT keyU e.1) (q.2 + e.2) mv) := by
      unfold mvApply
      rw [hfind]
    rw [hA]
    by_cases hz : q.2 + e.2 = 0
    · rw [if_pos hz]
      refine ⟨keys_eraseP_nodup keyT keyU mv _ hnd, fun kp => ?_⟩
      rw [weightAt_eraseP_nodup keyT keyU mv _ hnd kp]
      by_cases hk : kp = pairKey keyT keyU e.1
      · rw [if_pos hk, hk, hqw, if_pos rfl]
        omega
      · rw [if_neg hk, if_neg (fun hc : pairKey keyT keyU e.1 = kp => hk hc.symm)]
        ring
    · rw [if_neg hz]
      have hmem : pairKey keyT keyU e.1 ∈ mv.map (fun q => pairKey keyT keyU q.1) :=
        List.mem_map.mpr ⟨q, hqmem, hq⟩
      constructor
      · rw [MVInv, keys_setWeightFirst_eq]
        exact hnd
      · intro kp
        rw [weightAt_setWeightFirst keyT keyU _ _ mv hnd hmem kp]
        by_cases hk : kp = pairKey keyT keyU e.1
        · rw [if_pos hk, hk, hqw, if_pos rfl]
        · rw [if_neg hk, if_neg (fun hc : pairKey keyT keyU e.1 = kp => hk hc.symm)]
          ring

theorem mvUpdate_spec (delta : List ((T × U) × Int)) :
    ∀ mv : List ((T × U) × Int), MVInv keyT keyU mv →
      MVInv keyT keyU (mvUpdate keyT keyU mv delta) ∧
      ∀ kp : KT × KU, weightAt (pairKey keyT keyU) (mvUpdate keyT keyU mv delta) kp
        = weightAt (pairKey keyT keyU) mv kp
          + weightAt (pairKey keyT keyU) delta kp := by
  induction delta with
  | nil =>
      intro mv hnd
      refine ⟨hnd, fun kp => ?_⟩
      have h0 : mvUpdate keyT keyU mv [] = mv := rfl
      rw [weightAt_nil, h0]
      ring
  | cons e delta' ih =>
      intro mv hnd
      have hstep := mvApply_spec keyT keyU mv e hnd
      have hrec := ih (mvApply keyT keyU mv e) hstep.1
      have hfold : mvUpdate keyT keyU mv (e :: delta')
          = mvUpdate keyT keyU (mvApply keyT keyU mv e) delta' := by
        rw [mvUpdate, List.foldl_cons]
        rfl
      rw [hfold]
      refine ⟨hrec.1, fun kp => ?_⟩
      rw [hrec.2 kp, hstep.2 kp, weightAt_cons]
      ring

end MVLemmas

section C1

variable {T U KT KU KJ : Type} [DecidableEq KT] [DecidableEq KU] [DecidableEq KJ]
  (kA : T → KJ) (kB : U → KJ) (keyT : T → KT) (keyU : U → KU)

theorem weightAt_jr1 (dA : ZSet T) (dB : ZSet U) (kp : KT × KU) :
    weightAt (pairKey keyT keyU) (jr1 kA kB keyT keyU dA dB) kp
      = jweight kA kB keyT keyU dA dB kp := by
  rw [jr1]
  by_cases h : ¬dA.isEmpty ∧ ¬dB.isEmpty
  · rw [if_pos h, weightAt_groupAdd, weightAt_nil, weightAt_mergeRecords,
      weightAt_equiJoinRaw]
    ring
  · rw [if_neg h, weightAt_nil]
    rcases not_and_or.mp h with hA | hB
    · rw [List.isEmpty_iff.mp (not_not.mp hA), jweight_nil_left]
    · rw [List.isEmpty_iff.mp (not_not.mp hB), jweight_nil_right]

theorem weightAt_jr2 (st : JoinState T U) (dA : ZSet T) (dB : ZSet U)
    (kp : KT × KU) :
    weightAt (pairKey keyT keyU) (jr2 kA kB keyT keyU st dA dB) kp
      = jweight kA kB keyT keyU dA dB kp
        + jweight kA kB keyT keyU dA st.indexB kp := by
  rw [jr2]
  by_cases h : ¬dA.isEmpty
  · rw [if_pos h, weightAt_groupAdd, weightAt_jr1, weightAt_mergeRecords,
      weightAt_equiJoinRaw]
  · rw [if_neg h, weightAt_jr1, List.isEmpty_iff.mp (not_not.mp h),
      jweight_nil_left, jweight_nil_left]
    ring

theorem weightAt_jr3 (st : JoinState T U) (dA : ZSet T) (dB : ZSet U)
    (kp : KT × KU) :
    weightAt (pairKey keyT keyU) (jr3 kA kB keyT keyU st dA dB) kp
      = jweight kA kB keyT keyU dA dB kp
        + jweight kA kB keyT keyU dA st.indexB kp
        + jweight kA kB keyT keyU st.indexA dB kp := by
  rw [jr3]
  by_cases h : ¬dB.isEmpty
  · rw [if_pos h, weightAt_groupAdd, weightAt_jr2, weightAt_mergeRecords,
      weightAt_equiJoinRawFlip]
  · rw [if_neg h, weightAt_jr2, List.isEmpty_iff.mp (not_not.mp h),
      jweight_nil_right, jweight_nil_right]
    ring

theorem JInv_run (ds : List (ZSet T × ZSet U)) :
    (processDeltasJoin kA kB keyT keyU ds).indexA
        = (ds.map (fun d => d.1)).flatten ∧
    (processDeltasJoin kA kB keyT keyU ds).indexB
        = (ds.map (fun d => d.2)).flatten ∧
    MVInv keyT keyU (processDeltasJoin kA kB keyT keyU ds).mv ∧
    ∀ kp : KT × KU,
      weightAt (pairKey keyT keyU) (processDeltasJoin kA kB keyT keyU ds).mv kp
        = jweight kA kB keyT keyU ((ds.map (fun d => d.1)).flatten)
            ((ds.map (fun d => d.2)).flatten) kp := by
  induction ds using List.reverseRecOn with
  | nil =>
      refine ⟨rfl, rfl, by rw [MVInv]; exact List.nodup_nil, fun kp => rfl⟩
  | append_singleton ds d ih =>
      obtain ⟨hA, hB, hinv, hw⟩ := ih
      have hstep : processDeltasJoin kA kB keyT keyU (ds ++ [d])
          = (processIncrementJoin kA kB keyT keyU
              (processDeltasJoin kA kB keyT keyU ds) d.1 d.2).2 := by
        rw [processDeltasJoin, processDeltasJoin, List.foldl_append,
          List.foldl_cons, List.foldl_nil]
      rw [hstep]
      have hproj : (processIncrementJoin kA kB keyT keyU
          (processDeltasJoin kA kB keyT keyU ds) d.1 d.2).2
          = ⟨(processDeltasJoin kA kB keyT keyU ds).indexA ++ d.1,
              (processDeltasJoin kA kB keyT keyU ds).indexB ++ d.2,
              mvUpdate keyT keyU (processDeltasJoin kA kB keyT keyU ds).mv
                (jr3 kA kB keyT keyU (processDeltasJoin kA kB keyT keyU ds)
                  d.1 d.2)⟩ := rfl
      rw [hproj]
      have hflatA : ((ds ++ [d]).map (fun d => d.1)).flatten
          = (ds.map (fun d => d.1)).flatten ++ d.1 := by
        rw [List.map_append, List.flatten_append]
        simp
      have hflatB : ((ds ++ [d]).map (fun d => d.2)).flatten
          = (ds.map (fun d => d.2)).flatten ++ d.2 := by
        rw [List.map_append, List.flatten_append]
        simp
      have hmv := mvUpdate_spec keyT keyU
        (jr3 kA kB keyT keyU (processDeltasJoin kA kB keyT keyU ds) d.1 d.2)
        (processDeltasJoin kA kB keyT keyU ds).mv hinv
      refine ⟨?_, ?_, hmv.1, ?_⟩
      · rw [hflatA]
        show (processDeltasJoin kA kB keyT keyU ds).indexA ++ d.1 = _
        rw [hA]
      · rw [hflatB]
        show (processDeltasJoin kA kB keyT keyU ds).indexB ++ d.2 = _
        rw [hB]
      · intro kp
        show weightAt (pairKey keyT keyU)
          (mvUpdate keyT keyU (processDeltasJoin kA kB keyT keyU ds).mv
            (jr3 kA kB keyT keyU (processDeltasJoin kA kB keyT keyU ds) d.1 d.2)) kp
          = _
        rw [hmv.2 kp, hw kp, weightAt_jr3, hA, hB, hflatA, hflatB,
          jweight_append_left, jweight_append_right, jweight_append_right]
        ring

/-- C1: for every sequence of delta pairs applied in order through
`StatefulEquiJoin.processIncrement` from fresh (empty) state,
`getMaterializedView()` afterwards is a Z-set semantically equal (equal
weight at every joined-pair serialization key) to `ZSetOperators.equiJoin`
with the same key extractors applied to the concatenation of all the Δa
and the concatenation of all the Δb (the group sum of the deltas denotes
the same Z-set). -/
theorem C1_stateful_join_incremental (ds : List (ZSet T × ZSet U))
    (kp : KT × KU) :
    weightAt (pairKey keyT keyU)
        (materializedView (processDeltasJoin kA kB keyT keyU ds)) kp
      = weightAt (pairKey keyT keyU)
          (equiJoin kA kB keyT keyU ((ds.map (fun d => d.1)).flatten)
            ((ds.map (fun d => d.2)).flatten)) kp := by
  rw [materializedView, (JInv_run kA kB keyT keyU ds).2.2.2 kp, equiJoin,
    weightAt_mergeRecords, weightAt_equiJoinRaw]

end C1

end Forseti
